import Mathlib

/- Verification of the coefficient-form polynomial engine of the stir crate,
   file src/stir/src/polynomial/mod.rs, over a shallow embedding in Lean.
   Machine integers (usize lengths, degrees) are modelled as Nat; Rust panics
   and asserts are modelled as Option.none results. -/

set_option maxHeartbeats 1000000
set_option linter.unusedSectionVars false

/-- Shorthand for the Mathlib polynomial type, used as the semantic domain of
coefficient lists. -/
abbrev MPoly (R : Type) [Semiring R] := Polynomial R

namespace Stir

variable {F : Type} [Field F] [DecidableEq F]

/-- Stores a polynomial in coefficient form: the coefficient of x^i is stored
at location i of coeffs.  Mirrors pub struct Polynomial of the source. -/
structure Polynomial (F : Type) where
  coeffs : List F
deriving DecidableEq

/-- Polynomial::zero. -/
def Polynomial.zero : Polynomial F := ⟨[]⟩

/-- Polynomial::one. -/
def Polynomial.one : Polynomial F := ⟨[(1 : F)]⟩

/-- Polynomial::monomial, the polynomial coeff + x. -/
def Polynomial.monomial (coeff : F) : Polynomial F := ⟨[coeff, 1]⟩

/-- Polynomial::from_coeffs. -/
def Polynomial.from_coeffs (coeffs : List F) : Polynomial F := ⟨coeffs⟩

/-- List-level model of the pop loop of truncate_leading_zeros: drop every
trailing zero coefficient. -/
def trimZeros : List F → List F
  | [] => []
  | c :: cs =>
    match trimZeros cs with
    | [] => if c = 0 then [] else [c]
    | c2 :: cs2 => c :: c2 :: cs2

/-- Polynomial::truncate_leading_zeros. -/
def Polynomial.truncate_leading_zeros (p : Polynomial F) : Polynomial F :=
  ⟨trimZeros p.coeffs⟩

/-- Horner evaluation, the rfold of the source. -/
def horner_evaluate (poly_coeffs : List F) (point : F) : F :=
  poly_coeffs.foldr (fun coeff result => result * point + coeff) 0

/-- Polynomial::is_zero: the coefficient vector is empty. -/
def Polynomial.is_zero (p : Polynomial F) : Bool := p.coeffs.isEmpty

/-- Polynomial::evaluate. -/
def Polynomial.evaluate (p : Polynomial F) (point : F) : F :=
  if p.is_zero then 0 else horner_evaluate p.coeffs point

/-- Polynomial::degree: len - 1, special-cased to 0 for the zero polynomial. -/
def Polynomial.degree (p : Polynomial F) : Nat :=
  if p.is_zero then 0 else p.coeffs.length - 1

/-- The canonical-form invariant of the data model: the coefficient vector is
empty (the canonical zero polynomial) or its last entry is nonzero, i.e.
there is no trailing zero coefficient. -/
def Trimmed (l : List F) : Prop := l = [] ∨ l.getD (l.length - 1) 0 ≠ 0

instance (l : List F) : Decidable (Trimmed l) :=
  inferInstanceAs (Decidable (_ ∨ _))

/-- Add for Polynomial references: early return on a zero operand, otherwise
add the shorter coefficient vector into the longer one (the operand of larger
degree) and truncate trailing zeros. -/
def polyAdd (p other : Polynomial F) : Polynomial F :=
  if p.is_zero then other
  else if other.is_zero then p
  else
    let hl := if other.degree ≤ p.degree then (p, other) else (other, p)
    Polynomial.truncate_leading_zeros
      ⟨(List.zipWith (· + ·) hl.1.coeffs hl.2.coeffs) ++ hl.1.coeffs.drop hl.2.coeffs.length⟩

/-- Neg for Polynomial references. -/
def polyNeg (p : Polynomial F) : Polynomial F := ⟨p.coeffs.map (fun c => -c)⟩

/-- Sub for Polynomial references: self + (-other). -/
def polySub (p other : Polynomial F) : Polynomial F := polyAdd p (polyNeg other)

/-- The while loop of divide_with_q_and_r, with the remainder popped of
trailing zeros after each subtraction, written with fuel: with a nonzero
divisor leading coefficient every round strictly shrinks the remainder, so
fuel equal to the initial remainder length is never exhausted. -/
def divLoop (d : List F) (dInv : F) : Nat → List F → List F → List F × List F
  | 0, q, r => (q, r)
  | fuel + 1, q, r =>
    if r.length = 0 ∨ r.length - 1 < d.length - 1 then (q, r)
    else
      let cur := r.getLastD 0 * dInv
      let cdeg := (r.length - 1) - (d.length - 1)
      divLoop d dInv fuel (q.set cdeg cur)
        (trimZeros (r.take cdeg ++ List.zipWith (fun a b => a - cur * b) (r.drop cdeg) d))

/-- Polynomial::divide_with_q_and_r.  none models the two panic paths: the
assert on a zero divisor, and the unwrap inside Field::inverse when the
divisor has a zero leading coefficient (possible only for a divisor that
violates the canonical-form invariant). -/
def Polynomial.divide_with_q_and_r (p divisor : Polynomial F) :
    Option (Polynomial F × Polynomial F) :=
  if divisor.is_zero then none
  else if p.is_zero then some (Polynomial.zero, Polynomial.zero)
  else if p.degree < divisor.degree then some (Polynomial.zero, p)
  else if divisor.coeffs.getLastD 0 = 0 then none
  else
    let res := divLoop divisor.coeffs (divisor.coeffs.getLastD 0)⁻¹ p.coeffs.length
      (List.replicate (p.degree - divisor.degree + 1) 0) p.coeffs
    some (⟨res.1⟩, ⟨res.2⟩)

/-- Div for Polynomial references: exact division, asserting that the
remainder is zero (none models the assertion failure). -/
def polyDiv (p divisor : Polynomial F) : Option (Polynomial F) :=
  match p.divide_with_q_and_r divisor with
  | none => none
  | some (q, r) => if r.is_zero then some q else none

/-- Helper for ceilLog2, recursing on fuel. -/
def ceilLog2Aux : Nat → Nat → Nat
  | 0, _ => 0
  | fuel + 1, m => if m ≤ 1 then 0 else ceilLog2Aux fuel ((m + 1) / 2) + 1

/-- Exponent of the smallest power of two at or above m (the usize method
next_power_of_two composed with log2_strict). -/
def ceilLog2 (m : Nat) : Nat := ceilLog2Aux m m

/-- omega is a primitive n-th root of unity. -/
def primRoot (omega : F) (n : Nat) : Prop :=
  omega ^ n = 1 ∧ ∀ d < n, 0 < d → omega ^ d ≠ 1

instance (omega : F) (n : Nat) : Decidable (primRoot omega n) :=
  inferInstanceAs (Decidable (_ ∧ _))

/-- The two-adic generator map g supplies a primitive 2^k-th root of unity,
with 2^k invertible in the field, for every k up to K: what the TwoAdicField
bound of the source guarantees up to the two-adicity of the field. -/
def GoodGen (g : Nat → F) (K : Nat) : Prop :=
  ∀ k ≤ K, primRoot (g k) (2 ^ k) ∧ ((2 ^ k : ℕ) : F) ≠ 0

instance (g : Nat → F) (K : Nat) : Decidable (GoodGen g K) :=
  inferInstanceAs (Decidable (∀ k ≤ K, _ ∧ _))

/-- Modelled from the spec: the forward discrete transform of crate p3-dft
(NaiveDft, not under src) evaluates the coefficient vector, zero-extended to
length n, at the successive powers of the two-adic generator omega. -/
def dftList (omega : F) (n : Nat) (a : List F) : List F :=
  (List.range n).map (fun r => ∑ s ∈ Finset.range n, a.getD s 0 * omega ^ (r * s))

/-- Modelled from the spec: the inverse discrete transform of crate p3-dft
(not under src): evaluation at the inverse powers of omega, divided by the
domain size. -/
def idftList (omega : F) (n : Nat) (y : List F) : List F :=
  (List.range n).map (fun i => (n : F)⁻¹ * ∑ r ∈ Finset.range n, y.getD r 0 * omega⁻¹ ^ (i * r))

/-- Mul for Polynomial references: both coefficient vectors are zero-extended
to a common evaluation domain whose size is the next power of two at or above
len + len - 1, transformed, multiplied pointwise, inverse-transformed and
truncated of trailing zeros.  Returns none when both inputs are empty: the
usize expression len + len - 1 underflows there and the original panics. -/
def mulPoly (g : Nat → F) (p other : Polynomial F) : Option (Polynomial F) :=
  if p.coeffs.length + other.coeffs.length = 0 then none
  else
    let k := ceilLog2 (p.coeffs.length + other.coeffs.length - 1)
    let n := 2 ^ k
    let omega := g k
    let prod := List.zipWith (· * ·) (dftList omega n p.coeffs) (dftList omega n other.coeffs)
    some (Polynomial.truncate_leading_zeros ⟨idftList omega n prod⟩)

/-- Following the spec words: brute-force schoolbook coefficient convolution,
coefficient i of the product of a and b. -/
def naiveConvCoeff (a b : List F) (i : Nat) : F :=
  ∑ s ∈ Finset.range (i + 1), a.getD s 0 * b.getD (i - s) 0

/-- Following the spec words: the brute-force schoolbook product coefficient
vector of a and b (length len a + len b - 1). -/
def naiveConv (a b : List F) : List F :=
  (List.range (a.length + b.length - 1)).map (naiveConvCoeff a b)

/-- Polynomial::vanishing_polynomial: the product, via mulPoly, of the
monomials (x - point), folded left starting from one (the Product impl). -/
def Polynomial.vanishing_polynomial (g : Nat → F) (points : List F) : Option (Polynomial F) :=
  points.foldlM (fun acc point => mulPoly g acc (Polynomial.monomial (-point))) Polynomial.one

/-- One accumulation step of naive_interpolate: divide the vanishing
polynomial by the monomial factor of the point (exact division), scale the
quotient so that it takes the target value at the point, and add it into the
accumulator.  none models the exact-division assert and the panic of the
field division when the quotient vanishes at its own point. -/
def interpStep (vanishing_poly : Polynomial F) (result : Polynomial F) (pe : F × F) :
    Option (Polynomial F) :=
  match polyDiv vanishing_poly (Polynomial.monomial (-pe.1)) with
  | none => none
  | some term =>
    if term.evaluate pe.1 = 0 then none
    else some (polyAdd result ⟨term.coeffs.map (fun c => c * (pe.2 / term.evaluate pe.1))⟩)

/-- Polynomial::naive_interpolate: Lagrange interpolation built from the
vanishing polynomial of the points. -/
def Polynomial.naive_interpolate (g : Nat → F) (point_to_evals : List (F × F)) :
    Option (Polynomial F) :=
  match Polynomial.vanishing_polynomial g (point_to_evals.map Prod.fst) with
  | none => none
  | some vanishing_poly => point_to_evals.foldlM (interpStep vanishing_poly) Polynomial.zero

/-- Semantic interpretation of a coefficient list as a Mathlib polynomial. -/
noncomputable def sem : List F → MPoly F
  | [] => 0
  | c :: cs => Polynomial.C c + Polynomial.X * sem cs

/- ------------------------------------------------------------------ -/
/- Roots of unity and the discrete transform.                          -/
/- ------------------------------------------------------------------ -/

theorem primRoot_ne_zero (omega : F) (n : Nat) (hn : n ≠ 0) (h : primRoot omega n) :
    omega ≠ 0 := by
  intro h0
  have h1 := h.1
  rw [h0, zero_pow hn] at h1
  exact zero_ne_one h1

theorem pow_mul_inv_pow (omega : F) (h0 : omega ≠ 0) (i : Nat) :
    omega ^ i * omega⁻¹ ^ i = 1 := by
  rw [← mul_pow, mul_inv_cancel₀ h0, one_pow]

theorem inv_pow_eq_one (omega : F) (n : Nat) (h1 : omega ^ n = 1) : omega⁻¹ ^ n = 1 := by
  rw [inv_pow, h1, inv_one]

theorem primRoot_pow_inj (omega : F) (n : Nat) (h : primRoot omega n)
    (a b : Nat) (ha : a < n) (hb : b < n) (heq : omega ^ a = omega ^ b) : a = b := by
  have hn : n ≠ 0 := by omega
  have h0 : omega ≠ 0 := primRoot_ne_zero omega n hn h
  rcases Nat.lt_trichotomy a b with hab | hab | hab
  · exfalso
    have hsplit : omega ^ b = omega ^ a * omega ^ (b - a) := by
      rw [← pow_add]
      congr 1
      omega
    have hkey : omega ^ a * 1 = omega ^ a * omega ^ (b - a) := by
      calc omega ^ a * 1 = omega ^ b := by rw [mul_one, heq]
        _ = omega ^ a * omega ^ (b - a) := hsplit
    have h2 := (mul_left_cancel₀ (pow_ne_zero a h0) hkey).symm
    exact h.2 (b - a) (by omega) (by omega) h2
  · exact hab
  · exfalso
    have hsplit : omega ^ a = omega ^ b * omega ^ (a - b) := by
      rw [← pow_add]
      congr 1
      omega
    have hkey : omega ^ b * 1 = omega ^ b * omega ^ (a - b) := by
      calc omega ^ b * 1 = omega ^ a := by rw [mul_one, ← heq]
        _ = omega ^ b * omega ^ (a - b) := hsplit
    have h2 := (mul_left_cancel₀ (pow_ne_zero b h0) hkey).symm
    exact h.2 (a - b) (by omega) (by omega) h2

theorem geom_sum_zero_of_root (x : F) (n : Nat) (hx : x ^ n = 1) (hx1 : x ≠ 1) :
    ∑ r ∈ Finset.range n, x ^ r = 0 := by
  have h := geom_sum_mul x n
  rw [hx, sub_self] at h
  rcases mul_eq_zero.mp h with h1 | h2
  · exact h1
  · exact absurd (sub_eq_zero.mp h2) hx1

theorem orth_sum (omega : F) (n : Nat) (h : primRoot omega n) (hn : n ≠ 0)
    (s i : Nat) (hs : s < 2 * n) (hi : i < n) :
    ∑ r ∈ Finset.range n, omega ^ (r * s) * omega⁻¹ ^ (i * r) =
      (if s = i ∨ s = i + n then (n : F) else 0) := by
  have h0 : omega ≠ 0 := primRoot_ne_zero omega n hn h
  have hterm : ∀ r, omega ^ (r * s) * omega⁻¹ ^ (i * r) =
      (omega ^ s * omega⁻¹ ^ i) ^ r := by
    intro r
    rw [mul_pow, ← pow_mul, ← pow_mul, Nat.mul_comm r s, Nat.mul_comm i r]
  rw [Finset.sum_congr rfl (fun r _ => hterm r)]
  have hxn : (omega ^ s * omega⁻¹ ^ i) ^ n = 1 := by
    have e1 : (omega ^ s) ^ n = 1 := by
      rw [← pow_mul, Nat.mul_comm s n, pow_mul, h.1, one_pow]
    have e2 : (omega⁻¹ ^ i) ^ n = 1 := by
      rw [← pow_mul, Nat.mul_comm i n, pow_mul, inv_pow_eq_one omega n h.1, one_pow]
    rw [mul_pow, e1, e2, one_mul]
  by_cases hcase : s = i ∨ s = i + n
  · rw [if_pos hcase]
    have hx1 : omega ^ s * omega⁻¹ ^ i = 1 := by
      rcases hcase with hc | hc
      · rw [hc]
        exact pow_mul_inv_pow omega h0 i
      · rw [hc, pow_add, h.1, mul_one]
        exact pow_mul_inv_pow omega h0 i
    rw [hx1]
    simp [nsmul_eq_mul]
  · rw [if_neg hcase]
    push_neg at hcase
    obtain ⟨hne1, hne2⟩ := hcase
    have hx1 : omega ^ s * omega⁻¹ ^ i ≠ 1 := by
      intro hxeq
      have hsi : omega ^ s = omega ^ i := by
        have h3 := congrArg (fun t => t * omega ^ i) hxeq
        simp only [one_mul] at h3
        rw [mul_assoc, mul_comm (omega⁻¹ ^ i) (omega ^ i),
            pow_mul_inv_pow omega h0 i, mul_one] at h3
        exact h3
      by_cases hsn : s < n
      · exact hne1 (primRoot_pow_inj omega n h s i hsn hi hsi)
      · have e3 : s - n + n = s := by omega
        have hs2 : omega ^ s = omega ^ (s - n) := by
          calc omega ^ s = omega ^ (s - n + n) := by rw [e3]
            _ = omega ^ (s - n) * omega ^ n := pow_add omega (s - n) n
            _ = omega ^ (s - n) := by rw [h.1, mul_one]
        rw [hs2] at hsi
        have h4 := primRoot_pow_inj omega n h (s - n) i (by omega) hi hsi
        omega
    exact geom_sum_zero_of_root _ n hxn hx1

theorem ite_or_split (P Q : Prop) [Decidable P] [Decidable Q] (hPQ : ¬(P ∧ Q)) (v : F) :
    (if P ∨ Q then v else 0) = (if P then v else 0) + (if Q then v else 0) := by
  by_cases hp : P
  · rw [if_pos (Or.inl hp), if_pos hp, if_neg (fun hq => hPQ ⟨hp, hq⟩), add_zero]
  · by_cases hq : Q
    · rw [if_pos (Or.inr hq), if_neg hp, if_pos hq, zero_add]
    · rw [if_neg (fun hor => hor.elim hp hq), if_neg hp, if_neg hq, add_zero]

end Stir

/-- A concrete, fully kernel-computable field of 17 elements for witnesses:
inversion is a^15, so every operation is structural. -/
instance instFieldFin17 : Field (Fin 17) where
  inv a := a ^ 15
  div a b := a * b ^ 15
  div_eq_mul_inv := by intros; rfl
  exists_pair_ne := ⟨0, 1, by decide⟩
  mul_inv_cancel := by decide
  inv_zero := by decide
  nnqsmul := _
  qsmul := _

/-- Witness field. -/
abbrev F17 := Fin 17

/-- A two-adic generator map for F17 (the generator 3 has order 16). -/
def gen17 : Nat → F17
  | 0 => 1
  | 1 => 16
  | 2 => 13
  | 3 => 9
  | 4 => 3
  | _ => 0

namespace Stir

variable {F : Type} [Field F] [DecidableEq F]

/- ------------------------------------------------------------------ -/
/- List helpers.                                                       -/
/- ------------------------------------------------------------------ -/

theorem getD_set_self (l : List F) (j : Nat) (v : F) (h : j < l.length) :
    (l.set j v).getD j 0 = v := by
  induction l generalizing j with
  | nil => simp at h
  | cons c cs ih =>
    cases j with
    | zero => rfl
    | succ j2 => simpa using ih j2 (by simpa using h)

theorem getD_set_ne (l : List F) (j i : Nat) (v : F) (h : i ≠ j) :
    (l.set j v).getD i 0 = l.getD i 0 := by
  induction l generalizing i j with
  | nil => rfl
  | cons c cs ih =>
    cases j with
    | zero =>
      cases i with
      | zero => exact absurd rfl h
      | succ i2 => rfl
    | succ j2 =>
      cases i with
      | zero => rfl
      | succ i2 => simpa using ih j2 i2 (by omega)

theorem getD_take (l : List F) (k i : Nat) (h : i < k) :
    (l.take k).getD i 0 = l.getD i 0 := by
  induction l generalizing k i with
  | nil => simp
  | cons c cs ih =>
    cases k with
    | zero => omega
    | succ k2 =>
      cases i with
      | zero => rfl
      | succ i2 => simpa using ih k2 i2 (by omega)

theorem getD_drop (l : List F) (k i : Nat) :
    (l.drop k).getD i 0 = l.getD (k + i) 0 := by
  induction l generalizing k with
  | nil => simp
  | cons c cs ih =>
    cases k with
    | zero => simp
    | succ k2 =>
      show (cs.drop k2).getD i 0 = (c :: cs).getD (k2 + 1 + i) 0
      have : k2 + 1 + i = (k2 + i) + 1 := by omega
      rw [this]
      simpa using ih k2

theorem getD_zipWith_sub (cur : F) (a b : List F) (i : Nat)
    (ha : i < a.length) (hb : i < b.length) :
    (List.zipWith (fun x y => x - cur * y) a b).getD i 0 =
      a.getD i 0 - cur * b.getD i 0 := by
  induction a generalizing b i with
  | nil => simp at ha
  | cons x xs ih =>
    cases b with
    | nil => simp at hb
    | cons y ys =>
      cases i with
      | zero => rfl
      | succ i2 => simpa using ih ys i2 (by simpa using ha) (by simpa using hb)

theorem addList_getD (b a : List F) (i : Nat) (h : b.length ≤ a.length) :
    (List.zipWith (· + ·) a b ++ a.drop b.length).getD i 0 = a.getD i 0 + b.getD i 0 := by
  induction b generalizing a i with
  | nil => simp
  | cons x xs ih =>
    cases a with
    | nil => simp at h
    | cons y ys =>
      cases i with
      | zero => simp
      | succ i2 => simpa using ih ys i2 (by simpa using h)

theorem subSeg_getD (r d : List F) (cur : F) (cdeg : Nat) (i : Nat)
    (hlen : cdeg + d.length = r.length) :
    (r.take cdeg ++ List.zipWith (fun a b => a - cur * b) (r.drop cdeg) d).getD i 0 =
      r.getD i 0 - cur * (if cdeg ≤ i then d.getD (i - cdeg) 0 else 0) := by
  by_cases hi : i < cdeg
  · rw [List.getD_append _ _ _ _ (by simp; omega), getD_take _ _ _ hi, if_neg (by omega)]
    ring
  · rw [List.getD_append_right _ _ _ _ (by simp; omega)]
    have hlt : (r.take cdeg).length = cdeg := by simp; omega
    rw [hlt, if_pos (by omega)]
    by_cases hi2 : i - cdeg < d.length
    · rw [getD_zipWith_sub _ _ _ _ (by simp; omega) hi2, getD_drop]
      congr 2
      omega
    · rw [List.getD_eq_default _ _ (by simp; omega), List.getD_eq_default _ _ (by omega : d.length ≤ i - cdeg),
          List.getD_eq_default _ _ (by omega : r.length ≤ i)]
      ring

theorem trimZeros_cons (c : F) (cs : List F) :
    trimZeros (c :: cs) = (match trimZeros cs with
      | [] => if c = 0 then ([] : List F) else [c]
      | c2 :: cs2 => c :: c2 :: cs2) := rfl

theorem trim_getD (l : List F) (i : Nat) : (trimZeros l).getD i 0 = l.getD i 0 := by
  induction l generalizing i with
  | nil => rfl
  | cons c cs ih =>
    rw [trimZeros_cons]
    rcases h : trimZeros cs with - | ⟨c2, cs2⟩
    · have hz : ∀ j, cs.getD j 0 = 0 := fun j => by
        have := ih j; rw [h] at this; simpa using this.symm
      by_cases hc : c = 0
      · rw [if_pos hc]
        cases i with
        | zero => simpa using hc.symm
        | succ i2 => simpa using (hz i2).symm
      · rw [if_neg hc]
        cases i with
        | zero => rfl
        | succ i2 => simpa using (hz i2).symm
    · cases i with
      | zero => rfl
      | succ i2 => have := ih i2; rw [h] at this; simpa using this

theorem trim_trimmed (l : List F) : Trimmed (trimZeros l) := by
  induction l with
  | nil => exact Or.inl rfl
  | cons c cs ih =>
    rw [trimZeros_cons]
    rcases h : trimZeros cs with - | ⟨c2, cs2⟩
    · by_cases hc : c = 0
      · rw [if_pos hc]; exact Or.inl rfl
      · rw [if_neg hc]; exact Or.inr (by simpa using hc)
    · rw [h] at ih
      rcases ih with h1 | h2
      · exact absurd h1 (by simp)
      · refine Or.inr ?_
        simpa using h2

theorem trim_length_le (l : List F) : (trimZeros l).length ≤ l.length := by
  induction l with
  | nil => simp [trimZeros]
  | cons c cs ih =>
    rw [trimZeros_cons]
    rcases h : trimZeros cs with - | ⟨c2, cs2⟩
    · by_cases hc : c = 0
      · rw [if_pos hc]; simp
      · rw [if_neg hc]; simp
    · rw [h] at ih
      simpa using ih

theorem trimmed_getD_last (l : List F) (hne : l ≠ []) (h : Trimmed l) :
    l.getD (l.length - 1) 0 ≠ 0 := by
  rcases h with h | h
  · exact absurd h hne
  · exact h

theorem trim_length_lt (l : List F) (h : ¬ Trimmed l) : (trimZeros l).length < l.length := by
  have hle := trim_length_le l
  rcases Nat.lt_or_ge (trimZeros l).length l.length with hlt | hge
  · exact hlt
  · exfalso
    have heq : (trimZeros l).length = l.length := by omega
    have hne : l ≠ [] := fun hnil => h (Or.inl hnil)
    have hz : l.getD (l.length - 1) 0 = 0 := by
      by_contra hzz
      exact h (Or.inr hzz)
    rcases trim_trimmed l with h1 | h2
    · rw [h1] at heq
      simp at heq
      exact hne (List.length_eq_zero.mp heq.symm)
    · rw [heq, trim_getD] at h2
      exact h2 hz

/- ------------------------------------------------------------------ -/
/- Semantics of coefficient lists.                                     -/
/- ------------------------------------------------------------------ -/

theorem sem_nil : sem ([] : List F) = 0 := rfl

theorem sem_cons (c : F) (cs : List F) :
    sem (c :: cs) = Polynomial.C c + Polynomial.X * sem cs := rfl

theorem sem_coeff (l : List F) (i : Nat) : (sem l).coeff i = l.getD i 0 := by
  induction l generalizing i with
  | nil => simp [sem]
  | cons c cs ih =>
    cases i with
    | zero => simp [sem, Polynomial.mul_coeff_zero]
    | succ i2 => simp [sem, Polynomial.coeff_X_mul, ih]

theorem sem_ext (l m : List F) (h : ∀ i, l.getD i 0 = m.getD i 0) : sem l = sem m := by
  apply Polynomial.ext
  intro i
  rw [sem_coeff, sem_coeff]
  exact h i

theorem sem_trim (l : List F) : sem (trimZeros l) = sem l :=
  sem_ext _ _ (trim_getD l)

theorem sem_eval (l : List F) (x : F) : (sem l).eval x = horner_evaluate l x := by
  induction l with
  | nil => simp [sem, horner_evaluate]
  | cons c cs ih =>
    simp only [sem, horner_evaluate, List.foldr_cons, Polynomial.eval_add, Polynomial.eval_C,
      Polynomial.eval_mul, Polynomial.eval_X]
    rw [ih]
    show c + x * horner_evaluate cs x = horner_evaluate cs x * x + c
    ring

theorem evaluate_eq_sem_eval (p : Polynomial F) (x : F) :
    p.evaluate x = (sem p.coeffs).eval x := by
  rcases p with ⟨l⟩
  cases l with
  | nil => simp [Polynomial.evaluate, Polynomial.is_zero, sem]
  | cons c cs =>
    rw [sem_eval]
    simp [Polynomial.evaluate, Polynomial.is_zero]

theorem sem_degree_lt (l : List F) : (sem l).degree < (l.length : ℕ) := by
  rw [Polynomial.degree_lt_iff_coeff_zero]
  intro m hm
  rw [sem_coeff]
  exact List.getD_eq_default _ _ (by exact_mod_cast hm)

theorem sem_ne_zero_of_trimmed (l : List F) (hne : l ≠ []) (h : Trimmed l) :
    sem l ≠ 0 := by
  intro h0
  apply trimmed_getD_last l hne h
  rw [← sem_coeff, h0]
  simp

theorem sem_natDegree_of_trimmed (l : List F) (hne : l ≠ []) (h : Trimmed l) :
    (sem l).natDegree = l.length - 1 := by
  have h1 : l.length - 1 ≤ (sem l).natDegree := by
    apply Polynomial.le_natDegree_of_ne_zero
    rw [sem_coeff]
    exact trimmed_getD_last l hne h
  have h2 : (sem l).natDegree < l.length := by
    rw [Polynomial.natDegree_lt_iff_degree_lt (sem_ne_zero_of_trimmed l hne h)]
    exact sem_degree_lt l
  omega

theorem sem_len_of_trimmed (l : List F) (hne : l ≠ []) (h : Trimmed l) :
    l.length = (sem l).natDegree + 1 := by
  rw [sem_natDegree_of_trimmed l hne h]
  have : l.length ≠ 0 := by simpa using hne
  omega

theorem sem_inj_trimmed (l m : List F) (hl : Trimmed l) (hm : Trimmed m)
    (h : sem l = sem m) : l = m := by
  have hco : ∀ i, l.getD i 0 = m.getD i 0 := by
    intro i; rw [← sem_coeff, ← sem_coeff, h]
  have hlen : l.length = m.length := by
    rcases hl2 : l with - | ⟨c, cs⟩
    · rcases hm2 : m with - | ⟨c2, cs2⟩
      · rfl
      · exfalso
        apply sem_ne_zero_of_trimmed m (by simp [hm2]) hm
        rw [← h, hl2, sem_nil]
    · rcases hm2 : m with - | ⟨c2, cs2⟩
      · exfalso
        apply sem_ne_zero_of_trimmed l (by simp [hl2]) hl
        rw [h, hm2, sem_nil]
      · rw [← hl2, ← hm2]
        rw [sem_len_of_trimmed l (by simp [hl2]) hl, sem_len_of_trimmed m (by simp [hm2]) hm, h]
  apply List.ext_getElem hlen
  intro i h1 h2
  have := hco i
  rwa [List.getD_eq_getElem _ _ h1, List.getD_eq_getElem _ _ h2] at this

theorem sem_replicate_zero (k : Nat) : sem (List.replicate k (0 : F)) = 0 := by
  induction k with
  | zero => rfl
  | succ k2 ih => simp [List.replicate_succ, sem, ih]

theorem sem_map_mul (l : List F) (s : F) :
    sem (l.map (fun c => c * s)) = Polynomial.C s * sem l := by
  induction l with
  | nil => simp [sem]
  | cons c cs ih =>
    simp only [List.map_cons, sem, ih, Polynomial.C_mul]
    ring

/- ------------------------------------------------------------------ -/
/- ceilLog2.                                                           -/
/- ------------------------------------------------------------------ -/

theorem ceilLog2Aux_spec (fuel : Nat) : ∀ m, m ≤ fuel →
    m ≤ 2 ^ ceilLog2Aux fuel m ∧ ∀ K, m ≤ 2 ^ K → ceilLog2Aux fuel m ≤ K := by
  induction fuel with
  | zero =>
    intro m hm
    have : m = 0 := by omega
    subst this
    exact ⟨by simp [ceilLog2Aux], fun K _ => by simp [ceilLog2Aux]⟩
  | succ fuel2 ih =>
    intro m hm
    by_cases h1 : m ≤ 1
    · constructor
      · simpa [ceilLog2Aux, h1] using by omega
      · intro K _; simp [ceilLog2Aux, h1]
    · have hrec : ceilLog2Aux (fuel2 + 1) m = ceilLog2Aux fuel2 ((m + 1) / 2) + 1 := by
        simp [ceilLog2Aux, h1]
      have hm2 : (m + 1) / 2 ≤ fuel2 := by omega
      obtain ⟨ha, hb⟩ := ih ((m + 1) / 2) hm2
      constructor
      · rw [hrec, pow_succ]
        omega
      · intro K hK
        have hK1 : 1 ≤ K := by
          by_contra hc
          have : K = 0 := by omega
          subst this
          simp at hK
          omega
        rw [hrec]
        have h2K : 2 ^ K = 2 * 2 ^ (K - 1) := by
          rw [← pow_succ']
          congr 1
          omega
        have : (m + 1) / 2 ≤ 2 ^ (K - 1) := by omega
        have := hb (K - 1) this
        omega

theorem le_two_pow_ceilLog2 (m : Nat) : m ≤ 2 ^ ceilLog2 m :=
  (ceilLog2Aux_spec m m le_rfl).1

theorem ceilLog2_le (m K : Nat) (h : m ≤ 2 ^ K) : ceilLog2 m ≤ K :=
  (ceilLog2Aux_spec m m le_rfl).2 K h

end Stir

namespace Stir

variable {F : Type} [Field F] [DecidableEq F]

theorem double_if_sum (a b : List F) (n i : Nat) (hn0 : n ≠ 0) (hi : i < n)
    (hab : a.length + b.length - 1 ≤ n) :
    ∑ s ∈ Finset.range n, ∑ t ∈ Finset.range n,
        a.getD s 0 * b.getD t 0 * (if s + t = i ∨ s + t = i + n then (n : F) else 0) =
      (n : F) * naiveConvCoeff a b i := by
  have hsplit : ∀ s t : Nat,
      a.getD s 0 * b.getD t 0 * (if s + t = i ∨ s + t = i + n then (n : F) else 0) =
        a.getD s 0 * b.getD t 0 * (if s + t = i then (n : F) else 0) +
          a.getD s 0 * b.getD t 0 * (if s + t = i + n then (n : F) else 0) := by
    intro s t
    rw [ite_or_split _ _ (by omega) _, mul_add]
  rw [Finset.sum_congr rfl (fun s _ => Finset.sum_congr rfl (fun t _ => hsplit s t))]
  rw [Finset.sum_congr rfl (fun s _ => Finset.sum_add_distrib), Finset.sum_add_distrib]
  have hzero : ∑ s ∈ Finset.range n, ∑ t ∈ Finset.range n,
      a.getD s 0 * b.getD t 0 * (if s + t = i + n then (n : F) else 0) = 0 := by
    apply Finset.sum_eq_zero
    intro s hs
    apply Finset.sum_eq_zero
    intro t ht
    by_cases hc : s + t = i + n
    · rw [if_pos hc]
      by_cases hsa : s < a.length
      · rw [List.getD_eq_default b _ (by omega : b.length ≤ t)]
        ring
      · rw [List.getD_eq_default a _ (by omega : a.length ≤ s)]
        ring
    · rw [if_neg hc, mul_zero]
  rw [hzero, add_zero]
  have hinner : ∀ s ∈ Finset.range n,
      ∑ t ∈ Finset.range n, a.getD s 0 * b.getD t 0 * (if s + t = i then (n : F) else 0) =
        (if s ≤ i then a.getD s 0 * b.getD (i - s) 0 * (n : F) else 0) := by
    intro s hs
    by_cases hsi : s ≤ i
    · rw [if_pos hsi]
      rw [Finset.sum_eq_single (i - s)]
      · rw [if_pos (by omega)]
      · intro t ht hne2
        rw [if_neg (by omega), mul_zero]
      · intro habs
        exact absurd (Finset.mem_range.mpr (by omega)) habs
    · rw [if_neg hsi]
      apply Finset.sum_eq_zero
      intro t ht
      rw [if_neg (by omega), mul_zero]
  rw [Finset.sum_congr rfl hinner]
  rw [← Finset.sum_subset (Finset.range_subset.mpr (show i + 1 ≤ n by omega))
      (fun s hs hnot => if_neg (by simp at hnot; omega))]
  rw [Finset.sum_congr rfl (fun s hs => if_pos (by simp at hs; omega))]
  simp only [naiveConvCoeff, Finset.mul_sum]
  apply Finset.sum_congr rfl
  intro s hs
  ring

theorem conv_main (omega : F) (n : Nat) (h : primRoot omega n) (hn0 : n ≠ 0)
    (hnF : (n : F) ≠ 0) (a b : List F) (hab : a.length + b.length - 1 ≤ n)
    (i : Nat) (hi : i < n) :
    (n : F)⁻¹ * ∑ r ∈ Finset.range n,
        ((∑ s ∈ Finset.range n, a.getD s 0 * omega ^ (r * s)) *
            (∑ t ∈ Finset.range n, b.getD t 0 * omega ^ (r * t))) * omega⁻¹ ^ (i * r) =
      naiveConvCoeff a b i := by
  have hexpand : ∀ r,
      ((∑ s ∈ Finset.range n, a.getD s 0 * omega ^ (r * s)) *
          (∑ t ∈ Finset.range n, b.getD t 0 * omega ^ (r * t))) * omega⁻¹ ^ (i * r) =
        ∑ s ∈ Finset.range n, ∑ t ∈ Finset.range n,
          a.getD s 0 * b.getD t 0 * (omega ^ (r * (s + t)) * omega⁻¹ ^ (i * r)) := by
    intro r
    rw [Finset.sum_mul_sum, Finset.sum_mul]
    apply Finset.sum_congr rfl
    intro s hs
    rw [Finset.sum_mul]
    apply Finset.sum_congr rfl
    intro t ht
    rw [Nat.left_distrib, pow_add]
    ring
  rw [Finset.sum_congr rfl (fun r _ => hexpand r)]
  rw [Finset.sum_comm]
  rw [Finset.sum_congr rfl (fun s _ => Finset.sum_comm)]
  have horth : ∀ s ∈ Finset.range n, ∀ t ∈ Finset.range n,
      ∑ r ∈ Finset.range n,
          a.getD s 0 * b.getD t 0 * (omega ^ (r * (s + t)) * omega⁻¹ ^ (i * r)) =
        a.getD s 0 * b.getD t 0 * (if s + t = i ∨ s + t = i + n then (n : F) else 0) := by
    intro s hs t ht
    rw [← Finset.mul_sum]
    congr 1
    have hst : s + t < 2 * n := by
      simp only [Finset.mem_range] at hs ht
      omega
    exact orth_sum omega n h hn0 (s + t) i hst hi
  rw [Finset.sum_congr rfl (fun s hs => Finset.sum_congr rfl (fun t ht => horth s hs t ht))]
  rw [double_if_sum a b n i hn0 hi hab, ← mul_assoc, inv_mul_cancel₀ hnF, one_mul]

theorem dftList_length (omega : F) (n : Nat) (a : List F) :
    (dftList omega n a).length = n := by
  simp [dftList]

theorem idftList_length (omega : F) (n : Nat) (y : List F) :
    (idftList omega n y).length = n := by
  simp [idftList]

theorem dft_entry (omega : F) (n : Nat) (a : List F) (r : Nat) (hr : r < n) :
    (dftList omega n a).getD r 0 = ∑ s ∈ Finset.range n, a.getD s 0 * omega ^ (r * s) := by
  unfold dftList
  rw [List.getD_eq_getElem _ _ (by simpa using hr)]
  simp

theorem idft_entry (omega : F) (n : Nat) (y : List F) (i : Nat) (hi : i < n) :
    (idftList omega n y).getD i 0 =
      (n : F)⁻¹ * ∑ r ∈ Finset.range n, y.getD r 0 * omega⁻¹ ^ (i * r) := by
  unfold idftList
  rw [List.getD_eq_getElem _ _ (by simpa using hi)]
  simp

theorem zip_mul_getD (a b : List F) (i : Nat) (ha : i < a.length) (hb : i < b.length) :
    (List.zipWith (· * ·) a b).getD i 0 = a.getD i 0 * b.getD i 0 := by
  induction a generalizing b i with
  | nil => simp at ha
  | cons x xs ih =>
    cases b with
    | nil => simp at hb
    | cons y ys =>
      cases i with
      | zero => rfl
      | succ i2 => simpa using ih ys i2 (by simpa using ha) (by simpa using hb)

theorem convCoeff_eq_zero (a b : List F) (i : Nat) (hi : a.length + b.length - 1 ≤ i) :
    naiveConvCoeff a b i = 0 := by
  unfold naiveConvCoeff
  apply Finset.sum_eq_zero
  intro s hs
  simp only [Finset.mem_range] at hs
  by_cases hsa : s < a.length
  · rw [List.getD_eq_default b _ (by omega : b.length ≤ i - s), mul_zero]
  · rw [List.getD_eq_default a _ (by omega : a.length ≤ s), zero_mul]

theorem trim_append_zero (l : List F) : trimZeros (l ++ [(0 : F)]) = trimZeros l := by
  induction l with
  | nil => simp [trimZeros]
  | cons c cs ih =>
    rw [List.cons_append, trimZeros_cons, trimZeros_cons, ih]

theorem trim_map_range (cv : Nat → F) (mm n : Nat) (hmn : mm ≤ n)
    (h : ∀ j, mm ≤ j → cv j = 0) :
    trimZeros ((List.range n).map cv) = trimZeros ((List.range mm).map cv) := by
  induction n with
  | zero =>
    have : mm = 0 := by omega
    subst this
    rfl
  | succ n2 ih =>
    rcases Nat.lt_or_ge n2 mm with h2 | h2
    · have : mm = n2 + 1 := by omega
      subst this
      rfl
    · have hz : cv n2 = 0 := h n2 h2
      rw [List.range_succ, List.map_append, List.map_singleton, hz, trim_append_zero, ih h2]

theorem dft_mul_list (omega : F) (n : Nat) (h : primRoot omega n) (hn0 : n ≠ 0)
    (hnF : (n : F) ≠ 0) (a b : List F) (hab : a.length + b.length - 1 ≤ n) :
    trimZeros (idftList omega n
        (List.zipWith (· * ·) (dftList omega n a) (dftList omega n b))) =
      trimZeros (naiveConv a b) := by
  have hentry : idftList omega n
      (List.zipWith (· * ·) (dftList omega n a) (dftList omega n b)) =
      (List.range n).map (naiveConvCoeff a b) := by
    apply List.ext_getElem
    · rw [idftList_length]
      simp
    · intro i h1 h2
      have hi : i < n := by
        rw [idftList_length] at h1
        exact h1
      rw [← List.getD_eq_getElem _ 0 h1, ← List.getD_eq_getElem _ 0 h2]
      rw [idft_entry omega n _ i hi]
      have hprod : ∀ r ∈ Finset.range n,
          (List.zipWith (· * ·) (dftList omega n a) (dftList omega n b)).getD r 0 *
              omega⁻¹ ^ (i * r) =
            ((∑ s ∈ Finset.range n, a.getD s 0 * omega ^ (r * s)) *
              (∑ t ∈ Finset.range n, b.getD t 0 * omega ^ (r * t))) * omega⁻¹ ^ (i * r) := by
        intro r hr
        have hr2 : r < n := Finset.mem_range.mp hr
        rw [zip_mul_getD _ _ _ (by rw [dftList_length]; exact hr2)
            (by rw [dftList_length]; exact hr2), dft_entry omega n a r hr2,
            dft_entry omega n b r hr2]
      rw [Finset.sum_congr rfl hprod]
      rw [conv_main omega n h hn0 hnF a b hab i hi]
      have : ((List.range n).map (naiveConvCoeff a b)).getD i 0 = naiveConvCoeff a b i := by
        rw [List.getD_eq_getElem _ 0 h2]
        simp
      rw [this]
  rw [hentry]
  show trimZeros ((List.range n).map (naiveConvCoeff a b)) =
    trimZeros ((List.range (a.length + b.length - 1)).map (naiveConvCoeff a b))
  exact trim_map_range (naiveConvCoeff a b) (a.length + b.length - 1) n hab
    (fun j hj => convCoeff_eq_zero a b j hj)

theorem mulPoly_eq_conv (g : Nat → F) (p other : Polynomial F)
    (hne : p.coeffs.length + other.coeffs.length ≠ 0)
    (hroot : primRoot (g (ceilLog2 (p.coeffs.length + other.coeffs.length - 1)))
      (2 ^ ceilLog2 (p.coeffs.length + other.coeffs.length - 1)))
    (hnF : ((2 ^ ceilLog2 (p.coeffs.length + other.coeffs.length - 1) : ℕ) : F) ≠ 0) :
    mulPoly g p other =
      some (Polynomial.truncate_leading_zeros ⟨naiveConv p.coeffs other.coeffs⟩) := by
  unfold mulPoly
  rw [if_neg hne]
  simp only [Polynomial.truncate_leading_zeros, Option.some.injEq, Polynomial.mk.injEq]
  exact dft_mul_list _ _ hroot (by positivity)
    hnF p.coeffs other.coeffs (le_two_pow_ceilLog2 _)



theorem naiveConv_getD (a b : List F) (i : Nat) :
    (naiveConv a b).getD i 0 = naiveConvCoeff a b i := by
  by_cases hi : i < a.length + b.length - 1
  · unfold naiveConv
    rw [List.getD_eq_getElem _ _ (by simpa using hi)]
    simp
  · unfold naiveConv
    rw [List.getD_eq_default _ _ (by simpa using hi), convCoeff_eq_zero a b i (by omega)]

theorem sem_naiveConv (a b : List F) : sem (naiveConv a b) = sem a * sem b := by
  apply Polynomial.ext
  intro i
  rw [sem_coeff, naiveConv_getD, Polynomial.coeff_mul,
    Finset.Nat.sum_antidiagonal_eq_sum_range_succ_mk]
  unfold naiveConvCoeff
  apply Finset.sum_congr rfl
  intro s hs
  rw [sem_coeff, sem_coeff]

theorem is_zero_iff (p : Polynomial F) : p.is_zero = true ↔ p.coeffs = [] := by
  rcases p with ⟨l⟩
  simp [Polynomial.is_zero, List.isEmpty_iff]

theorem is_zero_false_iff (p : Polynomial F) : p.is_zero = false ↔ p.coeffs ≠ [] := by
  rw [← Bool.not_eq_true, not_iff_not]
  exact is_zero_iff p

theorem degree_of_ne_nil (p : Polynomial F) (h : p.coeffs ≠ []) :
    p.degree = p.coeffs.length - 1 := by
  unfold Polynomial.degree
  rw [if_neg]
  rw [is_zero_iff]
  exact h

theorem degree_of_nil (p : Polynomial F) (h : p.coeffs = []) : p.degree = 0 := by
  unfold Polynomial.degree
  rw [if_pos]
  rw [is_zero_iff]
  exact h

theorem mulPoly_none_iff (g : Nat → F) (p other : Polynomial F) :
    mulPoly g p other = none ↔ (p.coeffs = [] ∧ other.coeffs = []) := by
  unfold mulPoly
  by_cases h : p.coeffs.length + other.coeffs.length = 0
  · rw [if_pos h]
    simp only [true_iff]
    constructor
    · exact List.length_eq_zero.mp (by omega)
    · exact List.length_eq_zero.mp (by omega)
  · rw [if_neg h]
    simp only [reduceCtorEq, false_iff]
    intro hc
    rcases hc with ⟨h1, h2⟩
    rw [h1, h2] at h
    simp at h

theorem mulPoly_sem (g : Nat → F) (p other : Polynomial F)
    (hne : p.coeffs.length + other.coeffs.length ≠ 0)
    (hroot : primRoot (g (ceilLog2 (p.coeffs.length + other.coeffs.length - 1)))
      (2 ^ ceilLog2 (p.coeffs.length + other.coeffs.length - 1)))
    (hnF : ((2 ^ ceilLog2 (p.coeffs.length + other.coeffs.length - 1) : ℕ) : F) ≠ 0) :
    ∃ m, mulPoly g p other = some m ∧
      m.coeffs = trimZeros (naiveConv p.coeffs other.coeffs) ∧
      sem m.coeffs = sem p.coeffs * sem other.coeffs ∧ Trimmed m.coeffs := by
  refine ⟨_, mulPoly_eq_conv g p other hne hroot hnF, rfl, ?_, trim_trimmed _⟩
  show sem (trimZeros (naiveConv p.coeffs other.coeffs)) = _
  rw [sem_trim, sem_naiveConv]

theorem sem_addList (hi lo : List F) (h : lo.length ≤ hi.length) :
    sem (List.zipWith (· + ·) hi lo ++ hi.drop lo.length) = sem hi + sem lo := by
  apply Polynomial.ext
  intro i
  rw [Polynomial.coeff_add, sem_coeff, sem_coeff, sem_coeff, addList_getD lo hi i h]

theorem sem_polyAdd (p other : Polynomial F) :
    sem (polyAdd p other).coeffs = sem p.coeffs + sem other.coeffs := by
  unfold polyAdd
  by_cases hp : p.is_zero
  · have h1 : p.coeffs = [] := (is_zero_iff p).mp hp
    simp [hp, h1, sem]
  · by_cases ho : other.is_zero
    · have h1 : other.coeffs = [] := (is_zero_iff other).mp ho
      simp [hp, ho, h1, sem]
    · have hpne : p.coeffs ≠ [] := (is_zero_false_iff p).mp (by simpa using hp)
      have hone : other.coeffs ≠ [] := (is_zero_false_iff other).mp (by simpa using ho)
      have hplen : 1 ≤ p.coeffs.length := by
        rcases List.exists_cons_of_ne_nil hpne with ⟨c, cs, hc⟩
        rw [hc]
        simp
      have holen : 1 ≤ other.coeffs.length := by
        rcases List.exists_cons_of_ne_nil hone with ⟨c, cs, hc⟩
        rw [hc]
        simp
      simp only [hp, ho, Bool.false_eq_true, if_false]
      by_cases hdeg : other.degree ≤ p.degree
      · rw [if_pos hdeg]
        have hlen : other.coeffs.length ≤ p.coeffs.length := by
          rw [degree_of_ne_nil p hpne, degree_of_ne_nil other hone] at hdeg
          omega
        show sem (trimZeros _) = _
        rw [sem_trim, sem_addList _ _ hlen]
      · rw [if_neg hdeg]
        have hlen : p.coeffs.length ≤ other.coeffs.length := by
          rw [degree_of_ne_nil p hpne, degree_of_ne_nil other hone] at hdeg
          omega
        show sem (trimZeros _) = _
        rw [sem_trim, sem_addList _ _ hlen, add_comm]

theorem polyAdd_length (p other : Polynomial F) :
    (polyAdd p other).coeffs.length ≤ max p.coeffs.length other.coeffs.length := by
  unfold polyAdd
  by_cases hp : p.is_zero
  · simp [hp]
  · by_cases ho : other.is_zero
    · simp [hp, ho]
    · simp only [hp, ho, Bool.false_eq_true, if_false]
      by_cases hdeg : other.degree ≤ p.degree
      · rw [if_pos hdeg]
        show (trimZeros (List.zipWith (· + ·) p.coeffs other.coeffs ++
          p.coeffs.drop other.coeffs.length)).length ≤ _
        refine le_trans (trim_length_le _) ?_
        rw [List.length_append, List.length_zipWith, List.length_drop]
        omega
      · rw [if_neg hdeg]
        show (trimZeros (List.zipWith (· + ·) other.coeffs p.coeffs ++
          other.coeffs.drop p.coeffs.length)).length ≤ _
        refine le_trans (trim_length_le _) ?_
        rw [List.length_append, List.length_zipWith, List.length_drop]
        omega

theorem polyAdd_trimmed (p other : Polynomial F) (hp : Trimmed p.coeffs)
    (ho : Trimmed other.coeffs) : Trimmed (polyAdd p other).coeffs := by
  unfold polyAdd
  by_cases hpz : p.is_zero
  · simpa [hpz] using ho
  · by_cases hoz : other.is_zero
    · simpa [hpz, hoz] using hp
    · simp only [hpz, hoz, Bool.false_eq_true, if_false]
      by_cases hdeg : other.degree ≤ p.degree
      · rw [if_pos hdeg]
        exact trim_trimmed _
      · rw [if_neg hdeg]
        exact trim_trimmed _

theorem sem_polyNeg (p : Polynomial F) : sem (polyNeg p).coeffs = -sem p.coeffs := by
  show sem (p.coeffs.map (fun c => -c)) = _
  apply Polynomial.ext
  intro i
  rw [Polynomial.coeff_neg, sem_coeff, sem_coeff]
  by_cases hi : i < p.coeffs.length
  · rw [List.getD_eq_getElem _ _ (by simpa using hi), List.getD_eq_getElem _ _ hi]
    simp
  · rw [List.getD_eq_default _ _ (by simpa using hi), List.getD_eq_default _ _ (by omega)]
    simp

theorem polyNeg_trimmed (p : Polynomial F) (hp : Trimmed p.coeffs) :
    Trimmed (polyNeg p).coeffs := by
  rcases hp with h | h
  · exact Or.inl (by simp [polyNeg, h])
  · refine Or.inr ?_
    show (p.coeffs.map (fun c => -c)).getD ((p.coeffs.map (fun c => -c)).length - 1) 0 ≠ 0
    have hne : p.coeffs ≠ [] := by
      intro hc
      rw [hc] at h
      simp at h
    have hlt : p.coeffs.length - 1 < p.coeffs.length := by
      have : p.coeffs.length ≠ 0 := by simpa using hne
      omega
    rw [List.length_map, List.getD_eq_getElem _ _ (by simpa using hlt)]
    simp only [List.getElem_map, ne_eq, neg_eq_zero]
    rw [List.getD_eq_getElem _ _ hlt] at h
    exact h

theorem sem_polySub (p other : Polynomial F) :
    sem (polySub p other).coeffs = sem p.coeffs - sem other.coeffs := by
  unfold polySub
  rw [sem_polyAdd, sem_polyNeg, sub_eq_add_neg]


/- ------------------------------------------------------------------ -/
/- The division loop.                                                  -/
/- ------------------------------------------------------------------ -/

theorem getLastD_eq_getD (l : List F) (hne : l ≠ []) (dd : F) :
    l.getLastD dd = l.getD (l.length - 1) 0 := by
  induction l generalizing dd with
  | nil => simp at hne
  | cons c cs ih =>
    cases hcs : cs with
    | nil => rfl
    | cons c2 cs2 =>
      subst hcs
      show (c2 :: cs2).getLastD c = _
      rw [ih (by simp) c]
      have h1 : (c :: c2 :: cs2).length - 1 = ((c2 :: cs2).length - 1) + 1 := by simp
      rw [h1]
      simp

theorem getD_replicate_zero (k j : Nat) : (List.replicate k (0 : F)).getD j 0 = 0 := by
  induction k generalizing j with
  | zero => rfl
  | succ k2 ih =>
    cases j with
    | zero => rfl
    | succ j2 => simpa [List.replicate_succ] using ih j2

theorem sem_set_zero (q : List F) (j : Nat) (v : F) (hj : j < q.length)
    (hz : q.getD j 0 = 0) :
    sem (q.set j v) = sem q + Polynomial.C v * Polynomial.X ^ j := by
  apply Polynomial.ext
  intro i
  rw [Polynomial.coeff_add, sem_coeff, sem_coeff, Polynomial.coeff_C_mul,
    Polynomial.coeff_X_pow]
  by_cases hij : i = j
  · subst hij
    rw [getD_set_self q i v hj, hz, if_pos rfl]
    ring
  · rw [getD_set_ne q j i v hij, if_neg hij]
    ring

theorem sem_subSeg (r d : List F) (cur : F) (cdeg : Nat) (hlen : cdeg + d.length = r.length) :
    sem (r.take cdeg ++ List.zipWith (fun a b => a - cur * b) (r.drop cdeg) d) =
      sem r - Polynomial.C cur * Polynomial.X ^ cdeg * sem d := by
  apply Polynomial.ext
  intro i
  rw [Polynomial.coeff_sub, sem_coeff, sem_coeff, subSeg_getD r d cur cdeg i hlen]
  have hco : (Polynomial.C cur * Polynomial.X ^ cdeg * sem d).coeff i =
      cur * (if cdeg ≤ i then d.getD (i - cdeg) 0 else 0) := by
    rw [mul_comm (Polynomial.C cur * Polynomial.X ^ cdeg) (sem d), ← mul_assoc,
      Polynomial.coeff_mul_X_pow']
    by_cases hc : cdeg ≤ i
    · rw [if_pos hc, if_pos hc, mul_comm (sem d) (Polynomial.C cur),
        Polynomial.coeff_C_mul, sem_coeff]
    · rw [if_neg hc, if_neg hc, mul_zero]
  rw [hco]

theorem divLoop_zero_fuel (d : List F) (dInv : F) (q r : List F) :
    divLoop d dInv 0 q r = (q, r) := rfl

theorem divLoop_succ (d : List F) (dInv : F) (fuel : Nat) (q r : List F) :
    divLoop d dInv (fuel + 1) q r =
      if r.length = 0 ∨ r.length - 1 < d.length - 1 then (q, r)
      else
        divLoop d dInv fuel (q.set ((r.length - 1) - (d.length - 1)) (r.getLastD 0 * dInv))
          (trimZeros (r.take ((r.length - 1) - (d.length - 1)) ++
            List.zipWith (fun a b => a - (r.getLastD 0 * dInv) * b)
              (r.drop ((r.length - 1) - (d.length - 1))) d)) := rfl

/-- Length of the subtracted segment list equals the remainder length. -/
theorem subSeg_length (r d : List F) (cur : F) (cdeg : Nat)
    (hlen : cdeg + d.length = r.length) :
    (r.take cdeg ++ List.zipWith (fun a b => a - cur * b) (r.drop cdeg) d).length =
      r.length := by
  rw [List.length_append, List.length_take, List.length_zipWith, List.length_drop]
  omega

/-- With an exact inverse of the divisor leading coefficient, one loop round
strictly shrinks the remainder: the subtraction cancels the leading entry and
the subsequent pop removes it. -/
theorem divStep_length_lt (d r : List F) (dInv : F) (hd : d ≠ [])
    (hinv : d.getD (d.length - 1) 0 * dInv = 1)
    (hr0 : r.length ≠ 0) (hrd : d.length - 1 ≤ r.length - 1) :
    (trimZeros (r.take ((r.length - 1) - (d.length - 1)) ++
      List.zipWith (fun a b => a - (r.getLastD 0 * dInv) * b)
        (r.drop ((r.length - 1) - (d.length - 1))) d)).length < r.length := by
  have hdlen : 1 ≤ d.length := by
    rcases List.exists_cons_of_ne_nil hd with ⟨c, cs, hc⟩
    rw [hc]
    simp
  have hlen : ((r.length - 1) - (d.length - 1)) + d.length = r.length := by omega
  have hrne : r ≠ [] := by
    intro hc
    rw [hc] at hr0
    simp at hr0
  have hsublen := subSeg_length r d (r.getLastD 0 * dInv) ((r.length - 1) - (d.length - 1)) hlen
  have hlast : (r.take ((r.length - 1) - (d.length - 1)) ++
      List.zipWith (fun a b => a - (r.getLastD 0 * dInv) * b)
        (r.drop ((r.length - 1) - (d.length - 1))) d).getD (r.length - 1) 0 = 0 := by
    rw [subSeg_getD r d _ _ _ hlen, if_pos (by omega)]
    have h1 : r.length - 1 - ((r.length - 1) - (d.length - 1)) = d.length - 1 := by omega
    rw [h1, getLastD_eq_getD r hrne 0, mul_assoc, mul_comm dInv (d.getD (d.length - 1) 0),
      hinv, mul_one, sub_self]
  have hnt : ¬ Trimmed (r.take ((r.length - 1) - (d.length - 1)) ++
      List.zipWith (fun a b => a - (r.getLastD 0 * dInv) * b)
        (r.drop ((r.length - 1) - (d.length - 1))) d) := by
    intro ht
    rcases ht with h1 | h2
    · rw [h1] at hsublen
      simp at hsublen
      omega
    · rw [hsublen] at h2
      exact h2 hlast
  calc (trimZeros _).length < _ := trim_length_lt _ hnt
    _ = r.length := hsublen

theorem divLoop_post (d : List F) (dInv : F) (hd : d ≠ [])
    (hinv : d.getD (d.length - 1) 0 * dInv = 1) :
    ∀ fuel q r, r.length ≤ fuel →
      ((divLoop d dInv fuel q r).2 = [] ∨
        (divLoop d dInv fuel q r).2.length - 1 < d.length - 1) ∧
      (divLoop d dInv fuel q r).1.length = q.length := by
  intro fuel
  induction fuel with
  | zero =>
    intro q r hr
    have h0 : r = [] := List.length_eq_zero.mp (by omega)
    subst h0
    exact ⟨Or.inl rfl, rfl⟩
  | succ fuel2 ih =>
    intro q r hr
    rw [divLoop_succ]
    by_cases hguard : r.length = 0 ∨ r.length - 1 < d.length - 1
    · rw [if_pos hguard]
      refine ⟨?_, rfl⟩
      rcases hguard with h1 | h2
      · exact Or.inl (List.length_eq_zero.mp h1)
      · exact Or.inr h2
    · rw [if_neg hguard]
      push_neg at hguard
      obtain ⟨hr0, hrd⟩ := hguard
      have hstep := divStep_length_lt d r dInv hd hinv hr0 hrd
      have hres := ih (q.set ((r.length - 1) - (d.length - 1)) (r.getLastD 0 * dInv))
        (trimZeros (r.take ((r.length - 1) - (d.length - 1)) ++
          List.zipWith (fun a b => a - (r.getLastD 0 * dInv) * b)
            (r.drop ((r.length - 1) - (d.length - 1))) d)) (by omega)
      refine ⟨hres.1, ?_⟩
      rw [hres.2, List.length_set]

theorem divLoop_trimmed (d : List F) (dInv : F) :
    ∀ fuel q r, Trimmed r → Trimmed (divLoop d dInv fuel q r).2 := by
  intro fuel
  induction fuel with
  | zero => intro q r hr; exact hr
  | succ fuel2 ih =>
    intro q r hr
    rw [divLoop_succ]
    by_cases hguard : r.length = 0 ∨ r.length - 1 < d.length - 1
    · rw [if_pos hguard]; exact hr
    · rw [if_neg hguard]
      exact ih _ _ (trim_trimmed _)

theorem divLoop_q_high (d : List F) (dInv : F) (hd : d ≠ []) :
    ∀ fuel q r t, r.length - (d.length - 1) ≤ t →
      (divLoop d dInv fuel q r).1.getD t 0 = q.getD t 0 := by
  intro fuel
  induction fuel with
  | zero => intro q r t ht; rfl
  | succ fuel2 ih =>
    intro q r t ht
    rw [divLoop_succ]
    by_cases hguard : r.length = 0 ∨ r.length - 1 < d.length - 1
    · rw [if_pos hguard]
    · rw [if_neg hguard]
      push_neg at hguard
      obtain ⟨hr0, hrd⟩ := hguard
      have hdlen : 1 ≤ d.length := List.length_pos.mpr hd
      have hlen : ((r.length - 1) - (d.length - 1)) + d.length = r.length := by omega
      have hsl := subSeg_length r d (r.getLastD 0 * dInv) ((r.length - 1) - (d.length - 1)) hlen
      have htr := trim_length_le (r.take ((r.length - 1) - (d.length - 1)) ++
        List.zipWith (fun a b => a - (r.getLastD 0 * dInv) * b)
          (r.drop ((r.length - 1) - (d.length - 1))) d)
      rw [ih (q.set ((r.length - 1) - (d.length - 1)) (r.getLastD 0 * dInv))
        (trimZeros (r.take ((r.length - 1) - (d.length - 1)) ++
          List.zipWith (fun a b => a - (r.getLastD 0 * dInv) * b)
            (r.drop ((r.length - 1) - (d.length - 1))) d)) t (by omega)]
      exact getD_set_ne q ((r.length - 1) - (d.length - 1)) t (r.getLastD 0 * dInv) (by omega)

theorem divLoop_sem (d : List F) (dInv : F) (hd : d ≠ [])
    (hinv : d.getD (d.length - 1) 0 * dInv = 1) :
    ∀ fuel q r, r.length ≤ fuel →
      r.length - (d.length - 1) ≤ q.length →
      (∀ j, j < r.length - (d.length - 1) → q.getD j 0 = 0) →
      sem (divLoop d dInv fuel q r).1 * sem d + sem (divLoop d dInv fuel q r).2 =
        sem q * sem d + sem r := by
  intro fuel
  induction fuel with
  | zero =>
    intro q r hr _ _
    have h0 : r = [] := List.length_eq_zero.mp (by omega)
    subst h0
    rfl
  | succ fuel2 ih =>
    intro q r hr hqlen hq
    rw [divLoop_succ]
    by_cases hguard : r.length = 0 ∨ r.length - 1 < d.length - 1
    · rw [if_pos hguard]
    · rw [if_neg hguard]
      push_neg at hguard
      obtain ⟨hr0, hrd⟩ := hguard
      have hdlen : 1 ≤ d.length := List.length_pos.mpr hd
      have hlen : ((r.length - 1) - (d.length - 1)) + d.length = r.length := by omega
      have hcdeg : (r.length - 1) - (d.length - 1) < q.length := by omega
      have hstep := divStep_length_lt d r dInv hd hinv hr0 hrd
      set cdeg := (r.length - 1) - (d.length - 1) with hcdef
      set cur := r.getLastD 0 * dInv with hcurdef
      set sub := r.take cdeg ++ List.zipWith (fun a b => a - cur * b) (r.drop cdeg) d
        with hsubdef
      have key := ih (q.set cdeg cur) (trimZeros sub) (by omega)
        (by rw [List.length_set]; omega)
        (fun j hj => by
          rw [getD_set_ne q cdeg j cur (by omega)]
          exact hq j (by omega))
      rw [key, sem_set_zero q cdeg cur hcdeg (hq cdeg (by omega)), sem_trim,
        sem_subSeg r d cur cdeg hlen]
      ring


/-- Full characterization of divide_with_q_and_r for a canonical nonzero
divisor: the call succeeds, the Euclidean identity holds, the remainder is
zero or of smaller degree, canonical inputs give canonical outputs, and in
the nontrivial branch the quotient vector has length deg p - deg d + 1. -/
theorem divide_some (p d : Polynomial F) (hd : d.is_zero = false) (hdt : Trimmed d.coeffs) :
    ∃ q r, p.divide_with_q_and_r d = some (q, r) ∧
      sem p.coeffs = sem q.coeffs * sem d.coeffs + sem r.coeffs ∧
      (r.is_zero = true ∨ r.degree < d.degree) ∧
      (Trimmed p.coeffs → Trimmed r.coeffs ∧ Trimmed q.coeffs) ∧
      (p.is_zero = false → d.degree ≤ p.degree →
        q.coeffs.length = p.degree - d.degree + 1) := by
  have hdne : d.coeffs ≠ [] := (is_zero_false_iff d).mp hd
  have hdlen : 1 ≤ d.coeffs.length := List.length_pos.mpr hdne
  have hlc : d.coeffs.getD (d.coeffs.length - 1) 0 ≠ 0 := trimmed_getD_last _ hdne hdt
  unfold Polynomial.divide_with_q_and_r
  simp only [hd, Bool.false_eq_true, if_false]
  by_cases hpz : p.is_zero
  · simp only [hpz, if_true]
    refine ⟨Polynomial.zero, Polynomial.zero, rfl, ?_, Or.inl rfl,
      fun _ => ⟨Or.inl rfl, Or.inl rfl⟩, ?_⟩
    · have hp0 : p.coeffs = [] := (is_zero_iff p).mp hpz
      rw [hp0]
      show sem ([] : List F) = sem ([] : List F) * sem d.coeffs + sem ([] : List F)
      rw [sem_nil]
      ring
    · intro hcon
      exact absurd hcon (by decide)
  · simp only [hpz, Bool.false_eq_true, if_false]
    have hpz2 : p.is_zero = false := by
      cases h2 : p.is_zero
      · rfl
      · exact absurd h2 hpz
    have hpne : p.coeffs ≠ [] := (is_zero_false_iff p).mp hpz2
    have hplen : 1 ≤ p.coeffs.length := List.length_pos.mpr hpne
    by_cases hdeg : p.degree < d.degree
    · rw [if_pos hdeg]
      refine ⟨Polynomial.zero, p, rfl, ?_, Or.inr hdeg, fun hp => ⟨hp, Or.inl rfl⟩, ?_⟩
      · show sem p.coeffs = sem ([] : List F) * sem d.coeffs + sem p.coeffs
        rw [sem_nil]
        ring
      · intro _ hcon
        omega
    · rw [if_neg hdeg]
      rw [getLastD_eq_getD d.coeffs hdne 0, if_neg hlc]
      have hdegle : d.coeffs.length ≤ p.coeffs.length := by
        rw [degree_of_ne_nil p hpne, degree_of_ne_nil d hdne] at hdeg
        omega
      set lc := d.coeffs.getD (d.coeffs.length - 1) 0 with hlcdef
      have hinv : d.coeffs.getD (d.coeffs.length - 1) 0 * lc⁻¹ = 1 := mul_inv_cancel₀ hlc
      set q0 := List.replicate (p.degree - d.degree + 1) (0 : F) with hq0def
      set L := divLoop d.coeffs lc⁻¹ p.coeffs.length q0 p.coeffs with hLdef
      have hq0len : q0.length = p.coeffs.length - (d.coeffs.length - 1) := by
        rw [hq0def, List.length_replicate, degree_of_ne_nil p hpne, degree_of_ne_nil d hdne]
        omega
      have hpost := divLoop_post d.coeffs lc⁻¹ hdne hinv p.coeffs.length q0 p.coeffs le_rfl
      have hsem := divLoop_sem d.coeffs lc⁻¹ hdne hinv p.coeffs.length q0 p.coeffs le_rfl
        (by omega) (fun j hj => by rw [hq0def]; exact getD_replicate_zero _ j)
      refine ⟨⟨L.1⟩, ⟨L.2⟩, rfl, ?_, ?_, ?_, ?_⟩
      · show sem p.coeffs = sem L.1 * sem d.coeffs + sem L.2
        rw [← hLdef] at hsem
        rw [hsem, hq0def, sem_replicate_zero]
        ring
      · rw [← hLdef] at hpost
        rcases hpost.1 with h1 | h2
        · exact Or.inl ((is_zero_iff _).mpr h1)
        · by_cases hL2 : L.2 = []
          · exact Or.inl ((is_zero_iff _).mpr hL2)
          · refine Or.inr ?_
            rw [degree_of_ne_nil _ hL2, degree_of_ne_nil d hdne]
            exact h2
      · intro hpt
        constructor
        · exact divLoop_trimmed d.coeffs lc⁻¹ p.coeffs.length q0 p.coeffs hpt
        · -- quotient is canonical: its top entry is the first loop coefficient
          rw [← hLdef] at hpost
          have hL1len : L.1.length = q0.length := hpost.2
          obtain ⟨f2, hf2⟩ : ∃ f2, p.coeffs.length = f2 + 1 :=
            ⟨p.coeffs.length - 1, by omega⟩
          have hcdeg0 : (p.coeffs.length - 1) - (d.coeffs.length - 1) = q0.length - 1 := by
            omega
          have hguard0 : ¬ (p.coeffs.length = 0 ∨
              p.coeffs.length - 1 < d.coeffs.length - 1) := by
            push_neg
            omega
          have hunfold : L = divLoop d.coeffs lc⁻¹ f2
              (q0.set ((p.coeffs.length - 1) - (d.coeffs.length - 1))
                (p.coeffs.getLastD 0 * lc⁻¹))
              (trimZeros (p.coeffs.take ((p.coeffs.length - 1) - (d.coeffs.length - 1)) ++
                List.zipWith (fun a b => a - (p.coeffs.getLastD 0 * lc⁻¹) * b)
                  (p.coeffs.drop ((p.coeffs.length - 1) - (d.coeffs.length - 1)))
                  d.coeffs)) := by
            rw [hLdef]
            conv_lhs => rw [hf2]
            rw [divLoop_succ, if_neg hguard0]
          have hstep := divStep_length_lt d.coeffs p.coeffs lc⁻¹ hdne hinv
            (by omega) (by omega)
          have htop : L.1.getD (q0.length - 1) 0 = p.coeffs.getLastD 0 * lc⁻¹ := by
            rw [hunfold, divLoop_q_high d.coeffs lc⁻¹ hdne f2 _ _ _ (by omega)]
            rw [hcdeg0] at *
            exact getD_set_self q0 (q0.length - 1) _ (by omega)
          refine Or.inr ?_
          show L.1.getD (L.1.length - 1) 0 ≠ 0
          rw [hL1len, htop, getLastD_eq_getD p.coeffs hpne 0]
          exact mul_ne_zero (trimmed_getD_last p.coeffs hpne hpt) (inv_ne_zero hlc)
      · intro _ _
        rw [← hLdef] at hpost
        show L.1.length = _
        rw [hpost.2, hq0def, List.length_replicate]


/- ------------------------------------------------------------------ -/
/- Exact division.                                                     -/
/- ------------------------------------------------------------------ -/

theorem poly_eq_of_coeffs (p q : Polynomial F) (h : p.coeffs = q.coeffs) : p = q := by
  rcases p with ⟨l⟩
  rcases q with ⟨m⟩
  simpa using h

theorem euclid_unique (D q1 q2 r1 r2 : MPoly F) (hD : D ≠ 0)
    (h1 : r1.degree < D.degree) (h2 : r2.degree < D.degree)
    (heq : q1 * D + r1 = q2 * D + r2) : q1 = q2 ∧ r1 = r2 := by
  by_cases hq : q1 = q2
  · subst hq
    exact ⟨rfl, add_left_cancel heq⟩
  · exfalso
    have hsub : (q1 - q2) * D = r2 - r1 := by
      linear_combination heq
    have hne : q1 - q2 ≠ 0 := sub_ne_zero.mpr hq
    have hdle : D.degree ≤ ((q1 - q2) * D).degree := by
      rw [Polynomial.degree_mul]
      have h0 : (0 : WithBot ℕ) ≤ (q1 - q2).degree := Polynomial.zero_le_degree_iff.mpr hne
      calc D.degree = 0 + D.degree := (zero_add _).symm
        _ ≤ (q1 - q2).degree + D.degree := add_le_add_right h0 _
    rw [hsub] at hdle
    have hlt : (r2 - r1).degree < D.degree :=
      lt_of_le_of_lt (Polynomial.degree_sub_le r2 r1) (max_lt h2 h1)
    exact absurd (lt_of_le_of_lt hdle hlt) (lt_irrefl _)

theorem sem_degree_eq_of_trimmed (l : List F) (hne : l ≠ []) (ht : Trimmed l) :
    (sem l).degree = ((l.length - 1 : ℕ) : WithBot ℕ) := by
  rw [Polynomial.degree_eq_natDegree (sem_ne_zero_of_trimmed l hne ht),
    sem_natDegree_of_trimmed l hne ht]

/-- Exact division: when the semantics of p is a multiple of the semantics of
a canonical nonzero divisor, the asserting division succeeds and returns the
cofactor. -/
theorem polyDiv_exact (p d : Polynomial F) (hd : d.is_zero = false) (hdt : Trimmed d.coeffs)
    (hpt : Trimmed p.coeffs) (A : MPoly F) (hA : sem p.coeffs = A * sem d.coeffs) :
    ∃ q, polyDiv p d = some q ∧ sem q.coeffs = A ∧ Trimmed q.coeffs ∧
      (p.is_zero = false → d.degree ≤ p.degree →
        q.coeffs.length = p.degree - d.degree + 1) := by
  obtain ⟨q, r, hsome, hid, hpost, htrim, hqlen⟩ := divide_some p d hd hdt
  obtain ⟨hrt, hqt⟩ := htrim hpt
  have hdne : d.coeffs ≠ [] := (is_zero_false_iff d).mp hd
  have hD : sem d.coeffs ≠ 0 := sem_ne_zero_of_trimmed _ hdne hdt
  have hbotlt : (⊥ : WithBot ℕ) < (sem d.coeffs).degree := by
    rw [bot_lt_iff_ne_bot]
    intro hc
    exact hD (Polynomial.degree_eq_bot.mp hc)
  have hdegr : (sem r.coeffs).degree < (sem d.coeffs).degree := by
    by_cases hrnil : r.coeffs = []
    · rw [hrnil, sem_nil, Polynomial.degree_zero]
      exact hbotlt
    · rcases hpost with h1 | h2
      · exact absurd ((is_zero_iff r).mp h1) hrnil
      · rw [sem_degree_eq_of_trimmed _ hrnil hrt, sem_degree_eq_of_trimmed _ hdne hdt]
        rw [degree_of_ne_nil r hrnil, degree_of_ne_nil d hdne] at h2
        exact_mod_cast h2
  have heq : A * sem d.coeffs + 0 = sem q.coeffs * sem d.coeffs + sem r.coeffs := by
    rw [add_zero, ← hA, hid]
  have huniq := euclid_unique (sem d.coeffs) A (sem q.coeffs) 0 (sem r.coeffs) hD
    (by rw [Polynomial.degree_zero]; exact hbotlt) hdegr heq
  have hrnil : r.coeffs = [] := by
    by_contra hc
    exact sem_ne_zero_of_trimmed _ hc hrt huniq.2.symm
  refine ⟨q, ?_, huniq.1.symm, hqt, hqlen⟩
  unfold polyDiv
  rw [hsome]
  show (if r.is_zero then some q else none) = some q
  rw [if_pos ((is_zero_iff r).mpr hrnil)]

/-- (A * B) / B = A for canonical A and canonical nonzero B, given roots of
unity for the one domain size used by the multiplication. -/
theorem mul_div_cancel_poly (g : Nat → F) (A B : Polynomial F)
    (hAt : Trimmed A.coeffs) (hBt : Trimmed B.coeffs) (hB : B.is_zero = false)
    (hroot : primRoot (g (ceilLog2 (A.coeffs.length + B.coeffs.length - 1)))
      (2 ^ ceilLog2 (A.coeffs.length + B.coeffs.length - 1)))
    (hnF : ((2 ^ ceilLog2 (A.coeffs.length + B.coeffs.length - 1) : ℕ) : F) ≠ 0) :
    ∃ m, mulPoly g A B = some m ∧ polyDiv m B = some A := by
  have hBne : B.coeffs ≠ [] := (is_zero_false_iff B).mp hB
  have hlen : A.coeffs.length + B.coeffs.length ≠ 0 := by
    have := List.length_pos.mpr hBne
    omega
  obtain ⟨m, hm, _, hsem, hmt⟩ := mulPoly_sem g A B hlen hroot hnF
  obtain ⟨q, hq, hqsem, hqt, _⟩ := polyDiv_exact m B hB hBt hmt (sem A.coeffs) (by rw [hsem])
  have hqa : q = A := poly_eq_of_coeffs q A (sem_inj_trimmed _ _ hqt hAt hqsem)
  exact ⟨m, hm, by rw [hq, hqa]⟩


/- ------------------------------------------------------------------ -/
/- Vanishing polynomial.                                               -/
/- ------------------------------------------------------------------ -/

theorem foldlM_option_nil {α β : Type} (f : β → α → Option β) (b : β) :
    List.foldlM f b [] = some b := rfl

theorem foldlM_option_cons {α β : Type} (f : β → α → Option β) (b : β) (a : α) (l : List α) :
    List.foldlM f b (a :: l) = (f b a).bind (fun b2 => List.foldlM f b2 l) := rfl

theorem sem_monomial (c : F) :
    sem (Polynomial.monomial c : Polynomial F).coeffs = Polynomial.X + Polynomial.C c := by
  show sem [c, 1] = _
  rw [sem_cons, sem_cons, sem_nil, Polynomial.C_1]
  ring

theorem sem_monomial_neg (c : F) :
    sem (Polynomial.monomial (-c) : Polynomial F).coeffs =
      Polynomial.X - Polynomial.C c := by
  rw [sem_monomial, map_neg]
  ring

theorem monomial_trimmed (c : F) : Trimmed (Polynomial.monomial c : Polynomial F).coeffs := by
  refine Or.inr ?_
  show ([c, 1] : List F).getD 1 0 ≠ 0
  exact one_ne_zero

theorem monomial_is_zero_false (c : F) :
    (Polynomial.monomial c : Polynomial F).is_zero = false := rfl

theorem monomial_degree (c : F) : (Polynomial.monomial c : Polynomial F).degree = 1 := rfl

theorem vanishing_go (g : Nat → F) (K : Nat) (hg : GoodGen g K) :
    ∀ (pts : List F) (acc : Polynomial F),
      Trimmed acc.coeffs → (sem acc.coeffs).Monic →
      acc.coeffs.length + pts.length ≤ 2 ^ K →
      ∃ v, List.foldlM (fun a point => mulPoly g a (Polynomial.monomial (-point))) acc pts =
          some v ∧
        sem v.coeffs =
          sem acc.coeffs * ((pts.map (fun pt => Polynomial.X - Polynomial.C pt)).prod) ∧
        Trimmed v.coeffs ∧ (sem v.coeffs).Monic ∧
        v.coeffs.length = acc.coeffs.length + pts.length := by
  intro pts
  induction pts with
  | nil =>
    intro acc hat ham hsz
    refine ⟨acc, rfl, by simp, hat, ham, by simp⟩
  | cons pt rest ih =>
    intro acc hat ham hsz
    have hane : acc.coeffs ≠ [] := by
      intro hc
      exact ham.ne_zero (by rw [hc, sem_nil])
    have halen : 1 ≤ acc.coeffs.length := List.length_pos.mpr hane
    have halen2 : acc.coeffs.length = (sem acc.coeffs).natDegree + 1 :=
      sem_len_of_trimmed _ hane hat
    have hsum : acc.coeffs.length + (Polynomial.monomial (-pt) : Polynomial F).coeffs.length
        = acc.coeffs.length + 2 := rfl
    have hszk : acc.coeffs.length + 1 ≤ 2 ^ K := by
      have hrl : (pt :: rest).length = rest.length + 1 := rfl
      omega
    have hkle : ceilLog2 (acc.coeffs.length + 1) ≤ K := ceilLog2_le _ K hszk
    obtain ⟨hroot, hnF⟩ := hg (ceilLog2 (acc.coeffs.length + 1)) hkle
    obtain ⟨m, hm, hmconv, hmsem, hmt⟩ := mulPoly_sem g acc (Polynomial.monomial (-pt))
      (by rw [hsum]; omega)
      (by
        have he : acc.coeffs.length +
            (Polynomial.monomial (-pt) : Polynomial F).coeffs.length - 1 =
            acc.coeffs.length + 1 := rfl
        rw [he]
        exact hroot)
      (by
        have he : acc.coeffs.length +
            (Polynomial.monomial (-pt) : Polynomial F).coeffs.length - 1 =
            acc.coeffs.length + 1 := rfl
        rw [he]
        exact hnF)
    rw [sem_monomial_neg pt] at hmsem
    have hmM : (sem m.coeffs).Monic := by
      rw [hmsem]
      exact ham.mul (Polynomial.monic_X_sub_C pt)
    have hmne : m.coeffs ≠ [] := by
      intro hc
      exact hmM.ne_zero (by rw [hc, sem_nil])
    have hmlen : m.coeffs.length = acc.coeffs.length + 1 := by
      rw [sem_len_of_trimmed _ hmne hmt, hmsem,
        Polynomial.Monic.natDegree_mul ham (Polynomial.monic_X_sub_C pt),
        Polynomial.natDegree_X_sub_C]
      omega
    obtain ⟨v, hv, hvsem, hvt, hvM, hvlen⟩ := ih m hmt hmM (by
      have hrl : (pt :: rest).length = rest.length + 1 := rfl
      omega)
    refine ⟨v, ?_, ?_, hvt, hvM, ?_⟩
    · rw [foldlM_option_cons, hm]
      exact hv
    · rw [hvsem, hmsem, List.map_cons, List.prod_cons]
      ring
    · rw [hvlen, hmlen]
      have hrl : (pt :: rest).length = rest.length + 1 := rfl
      omega


/- ------------------------------------------------------------------ -/
/- Interpolation.                                                      -/
/- ------------------------------------------------------------------ -/

theorem eval_lin_prod (ps : List F) (x : F) :
    Polynomial.eval x ((ps.map (fun pt => Polynomial.X - Polynomial.C pt)).prod) =
      (ps.map (fun pt => x - pt)).prod := by
  induction ps with
  | nil => simp
  | cons p rest ih =>
    simp only [List.map_cons, List.prod_cons, Polynomial.eval_mul, Polynomial.eval_sub,
      Polynomial.eval_X, Polynomial.eval_C, ih]

theorem evaluate_polyAdd (p other : Polynomial F) (x : F) :
    (polyAdd p other).evaluate x = p.evaluate x + other.evaluate x := by
  rw [evaluate_eq_sem_eval, evaluate_eq_sem_eval, evaluate_eq_sem_eval, sem_polyAdd,
    Polynomial.eval_add]

theorem evaluate_scaled (term : Polynomial F) (sc x : F) :
    (⟨term.coeffs.map (fun c => c * sc)⟩ : Polynomial F).evaluate x =
      sc * term.evaluate x := by
  rw [evaluate_eq_sem_eval, evaluate_eq_sem_eval]
  show (sem (term.coeffs.map (fun c => c * sc))).eval x = _
  rw [sem_map_mul, Polynomial.eval_mul, Polynomial.eval_C]

theorem getD_mem_prefix (ptv pre post : List (F × F)) (hsplit : ptv = pre ++ post)
    (j : Nat) (hj : j < pre.length) :
    ptv.getD j ((0 : F), (0 : F)) ∈ pre := by
  rw [hsplit, List.getD_append pre post _ j hj, List.getD_eq_getElem pre _ hj]
  exact List.getElem_mem _

theorem getD_mem_suffix (ptv pre post : List (F × F)) (hsplit : ptv = pre ++ post)
    (j : Nat) (hj1 : pre.length ≤ j) (hj2 : j < ptv.length) :
    ptv.getD j ((0 : F), (0 : F)) ∈ post := by
  rw [hsplit, List.getD_append_right pre post _ j hj1]
  have hlt : j - pre.length < post.length := by
    rw [hsplit, List.length_append] at hj2
    omega
  rw [List.getD_eq_getElem post _ hlt]
  exact List.getElem_mem _

theorem index_of_mem_prefix (ptv pre post : List (F × F)) (hsplit : ptv = pre ++ post)
    (q : F × F) (hq : q ∈ pre) :
    ∃ k, k < pre.length ∧ ptv.getD k ((0 : F), (0 : F)) = q := by
  obtain ⟨k2, hk2, hget⟩ := List.getElem_of_mem hq
  refine ⟨k2, hk2, ?_⟩
  rw [hsplit, List.getD_append pre post _ k2 hk2, List.getD_eq_getElem pre _ hk2, hget]

theorem index_of_mem_suffix (ptv pre post : List (F × F)) (hsplit : ptv = pre ++ post)
    (q : F × F) (hq : q ∈ post) :
    ∃ k, pre.length ≤ k ∧ k < ptv.length ∧ ptv.getD k ((0 : F), (0 : F)) = q := by
  obtain ⟨k2, hk2, hget⟩ := List.getElem_of_mem hq
  refine ⟨pre.length + k2, by omega, ?_, ?_⟩
  · rw [hsplit, List.length_append]
    omega
  · rw [hsplit, List.getD_append_right pre post _ _ (by omega)]
    have he : pre.length + k2 - pre.length = k2 := by omega
    rw [he, List.getD_eq_getElem post _ hk2, hget]

theorem interp_go (ptv : List (F × F)) (v : Polynomial F)
    (hvt : Trimmed v.coeffs) (hvlen : v.coeffs.length = ptv.length + 1)
    (hvsem : sem v.coeffs =
      ((ptv.map Prod.fst).map (fun pt => Polynomial.X - Polynomial.C pt)).prod)
    (hdist : ∀ i j, i < ptv.length → j < ptv.length → i ≠ j →
      (ptv.getD i ((0 : F), (0 : F))).1 ≠ (ptv.getD j ((0 : F), (0 : F))).1) :
    ∀ (rest done : List (F × F)) (acc : Polynomial F),
      ptv = done ++ rest →
      acc.coeffs.length ≤ ptv.length →
      (∀ j, j < ptv.length → acc.evaluate (ptv.getD j ((0 : F), (0 : F))).1 =
        if j < done.length then (ptv.getD j ((0 : F), (0 : F))).2 else 0) →
      ∃ res, List.foldlM (interpStep v) acc rest = some res ∧
        res.coeffs.length ≤ ptv.length ∧
        (∀ j, j < ptv.length → res.evaluate (ptv.getD j ((0 : F), (0 : F))).1 =
          if j < done.length + rest.length then (ptv.getD j ((0 : F), (0 : F))).2 else 0) := by
  intro rest
  induction rest with
  | nil =>
    intro done acc hsplit hlen heval
    exact ⟨acc, rfl, hlen, fun j hj => by simpa using heval j hj⟩
  | cons pe rest2 ih =>
    intro done acc hsplit hlen heval
    have hnlen : ptv.length = done.length + rest2.length + 1 := by
      rw [hsplit]
      simp
      omega
    have hm : done.length < ptv.length := by omega
    have hpe : ptv.getD done.length ((0 : F), (0 : F)) = pe := by
      rw [hsplit, List.getD_append_right done (pe :: rest2) _ done.length le_rfl]
      simp
    have hsplit2 : ptv = (done ++ [pe]) ++ rest2 := by
      rw [hsplit, List.append_assoc]
      rfl
    have hvfact : sem v.coeffs = (Polynomial.X - Polynomial.C pe.1) *
        (((done.map Prod.fst).map (fun pt => Polynomial.X - Polynomial.C pt)).prod *
          ((rest2.map Prod.fst).map (fun pt => Polynomial.X - Polynomial.C pt)).prod) := by
      rw [hvsem, hsplit]
      rw [List.map_append, List.map_cons, List.map_append, List.map_cons, List.prod_append,
        List.prod_cons]
      ring
    have hvz : v.is_zero = false := by
      rw [is_zero_false_iff]
      intro hc
      rw [hc] at hvlen
      simp at hvlen
    have hvne : v.coeffs ≠ [] := (is_zero_false_iff v).mp hvz
    obtain ⟨term, hterm, htermsem, htermt, htermlen⟩ :=
      polyDiv_exact v (Polynomial.monomial (-pe.1)) (monomial_is_zero_false _)
        (monomial_trimmed _) hvt
        (((done.map Prod.fst).map (fun pt => Polynomial.X - Polynomial.C pt)).prod *
          ((rest2.map Prod.fst).map (fun pt => Polynomial.X - Polynomial.C pt)).prod)
        (by rw [hvfact, sem_monomial_neg]; ring)
    have hvdeg : v.degree = ptv.length := by
      rw [degree_of_ne_nil v hvne, hvlen]
      omega
    have hterml : term.coeffs.length = ptv.length := by
      rw [htermlen hvz (by rw [monomial_degree, hvdeg]; omega), monomial_degree, hvdeg]
      omega
    have htermeval : ∀ x : F, term.evaluate x =
        ((done.map Prod.fst).map (fun p => x - p)).prod *
          ((rest2.map Prod.fst).map (fun p => x - p)).prod := by
      intro x
      rw [evaluate_eq_sem_eval, htermsem, Polynomial.eval_mul, eval_lin_prod, eval_lin_prod]
    have htene : term.evaluate pe.1 ≠ 0 := by
      rw [htermeval]
      apply mul_ne_zero
      · apply List.prod_ne_zero
        intro hmem
        obtain ⟨y, hy, hsub⟩ := List.mem_map.mp hmem
        obtain ⟨q, hq, hqy⟩ := List.mem_map.mp hy
        obtain ⟨k, hk, hkq⟩ := index_of_mem_prefix ptv done (pe :: rest2) hsplit q hq
        have hxy : pe.1 = y := sub_eq_zero.mp (by simpa using hsub)
        apply hdist k done.length (by omega) hm (by omega)
        rw [hkq, hpe, hqy, hxy]
      · apply List.prod_ne_zero
        intro hmem
        obtain ⟨y, hy, hsub⟩ := List.mem_map.mp hmem
        obtain ⟨q, hq, hqy⟩ := List.mem_map.mp hy
        obtain ⟨k, hk1, hk2, hkq⟩ := index_of_mem_suffix ptv (done ++ [pe]) rest2 hsplit2 q hq
        have hxy : pe.1 = y := sub_eq_zero.mp (by simpa using hsub)
        have hklen : done.length < k := by
          rw [List.length_append] at hk1
          simp at hk1
          omega
        apply hdist k done.length hk2 hm (by omega)
        rw [hkq, hpe, hqy, hxy]
    have hoth : ∀ j, j < ptv.length → j ≠ done.length →
        term.evaluate (ptv.getD j ((0 : F), (0 : F))).1 = 0 := by
      intro j hj hjm
      rw [htermeval]
      rcases Nat.lt_or_ge j done.length with hjlt | hjge
      · apply mul_eq_zero_of_left
        apply List.prod_eq_zero
        refine List.mem_map.mpr ⟨(ptv.getD j ((0 : F), (0 : F))).1, ?_, sub_self _⟩
        exact List.mem_map.mpr ⟨ptv.getD j ((0 : F), (0 : F)),
          getD_mem_prefix ptv done (pe :: rest2) hsplit j hjlt, rfl⟩
      · apply mul_eq_zero_of_right
        apply List.prod_eq_zero
        refine List.mem_map.mpr ⟨(ptv.getD j ((0 : F), (0 : F))).1, ?_, sub_self _⟩
        refine List.mem_map.mpr ⟨ptv.getD j ((0 : F), (0 : F)), ?_, rfl⟩
        apply getD_mem_suffix ptv (done ++ [pe]) rest2 hsplit2 j ?_ hj
        rw [List.length_append]
        simp
        omega
    have hstep : interpStep v acc pe = some (polyAdd acc ⟨term.coeffs.map
        (fun c => c * (pe.2 / term.evaluate pe.1))⟩) := by
      unfold interpStep
      rw [hterm]
      show (if term.evaluate pe.1 = 0 then none
        else some (polyAdd acc ⟨term.coeffs.map
          (fun c => c * (pe.2 / term.evaluate pe.1))⟩)) = _
      rw [if_neg htene]
    have hacc2len : (polyAdd acc ⟨term.coeffs.map
        (fun c => c * (pe.2 / term.evaluate pe.1))⟩).coeffs.length ≤ ptv.length := by
      refine le_trans (polyAdd_length _ _) ?_
      have hsc : (⟨term.coeffs.map (fun c => c * (pe.2 / term.evaluate pe.1))⟩ :
          Polynomial F).coeffs.length = term.coeffs.length := by
        show (term.coeffs.map _).length = _
        rw [List.length_map]
      rw [hsc, hterml]
      omega
    have hacc2eval : ∀ j, j < ptv.length →
        (polyAdd acc ⟨term.coeffs.map (fun c => c * (pe.2 / term.evaluate pe.1))⟩).evaluate
            (ptv.getD j ((0 : F), (0 : F))).1 =
          if j < (done ++ [pe]).length then (ptv.getD j ((0 : F), (0 : F))).2 else 0 := by
      intro j hj
      rw [evaluate_polyAdd, evaluate_scaled, heval j hj]
      have hdl : (done ++ [pe]).length = done.length + 1 := by simp
      by_cases hjm : j = done.length
      · subst hjm
        rw [if_neg (by omega), hpe, div_mul_cancel₀ pe.2 htene, zero_add, hdl,
          if_pos (by omega)]
      · rw [hoth j hj hjm, mul_zero, add_zero, hdl]
        by_cases hjlt : j < done.length
        · rw [if_pos hjlt, if_pos (by omega)]
        · rw [if_neg hjlt, if_neg (by omega)]
    obtain ⟨res, hres1, hres2, hres3⟩ := ih (done ++ [pe])
      (polyAdd acc ⟨term.coeffs.map (fun c => c * (pe.2 / term.evaluate pe.1))⟩)
      hsplit2 hacc2len hacc2eval
    refine ⟨res, ?_, hres2, ?_⟩
    · rw [foldlM_option_cons, hstep]
      show List.foldlM (interpStep v) _ rest2 = some res
      exact hres1
    · intro j hj
      have hB : done.length + (pe :: rest2).length = (done ++ [pe]).length + rest2.length := by
        simp
        omega
      rw [hB]
      exact hres3 j hj


theorem interpolate_main (g : Nat → F) (K : Nat) (hg : GoodGen g K)
    (ptv : List (F × F)) (hsz : ptv.length + 1 ≤ 2 ^ K)
    (hdist : ∀ i j, i < ptv.length → j < ptv.length → i ≠ j →
      (ptv.getD i ((0 : F), (0 : F))).1 ≠ (ptv.getD j ((0 : F), (0 : F))).1) :
    ∃ res, Polynomial.naive_interpolate g ptv = some res ∧
      (∀ j, j < ptv.length → res.evaluate (ptv.getD j ((0 : F), (0 : F))).1 =
        (ptv.getD j ((0 : F), (0 : F))).2) ∧
      res.coeffs.length ≤ ptv.length := by
  have hone_t : Trimmed (Polynomial.one : Polynomial F).coeffs := by
    refine Or.inr ?_
    show ([(1 : F)]).getD 0 0 ≠ 0
    exact one_ne_zero
  have hone_m : (sem (Polynomial.one : Polynomial F).coeffs).Monic := by
    show (sem [(1 : F)]).Monic
    rw [sem_cons, sem_nil, Polynomial.C_1]
    simpa using Polynomial.monic_one
  obtain ⟨v, hv, hvsem, hvt, hvM, hvlen⟩ := vanishing_go g K hg (ptv.map Prod.fst)
    Polynomial.one hone_t hone_m
    (by
      simp only [List.length_map]
      show 1 + ptv.length ≤ 2 ^ K
      omega)
  have hvsem2 : sem v.coeffs =
      ((ptv.map Prod.fst).map (fun pt => Polynomial.X - Polynomial.C pt)).prod := by
    rw [hvsem]
    show sem [(1 : F)] * _ = _
    rw [sem_cons, sem_nil, Polynomial.C_1]
    ring
  have hvlen2 : v.coeffs.length = ptv.length + 1 := by
    rw [hvlen]
    simp only [List.length_map]
    show 1 + ptv.length = ptv.length + 1
    omega
  obtain ⟨res, hres1, hres2, hres3⟩ := interp_go ptv v hvt hvlen2 hvsem2 hdist ptv []
    Polynomial.zero (by simp) (Nat.zero_le _)
    (fun j hj => by
      rw [show (Polynomial.zero : Polynomial F).evaluate _ = 0 from rfl, if_neg (by simp)])
  refine ⟨res, ?_, ?_, hres2⟩
  · unfold Polynomial.naive_interpolate Polynomial.vanishing_polynomial
    rw [hv]
    show List.foldlM (interpStep v) Polynomial.zero ptv = some res
    exact hres1
  · intro j hj
    have hr := hres3 j hj
    rwa [if_pos (by simpa using hj)] at hr

/- ------------------------------------------------------------------ -/
/- Canonicity of producing operations.                                 -/
/- ------------------------------------------------------------------ -/

theorem mulPoly_trimmed (g : Nat → F) (p other m : Polynomial F)
    (h : mulPoly g p other = some m) : Trimmed m.coeffs := by
  unfold mulPoly at h
  by_cases hc : p.coeffs.length + other.coeffs.length = 0
  · rw [if_pos hc] at h
    cases h
  · rw [if_neg hc] at h
    injection h with h2
    rw [← h2]
    exact trim_trimmed _

theorem vanishing_fold_trimmed (g : Nat → F) :
    ∀ (points : List F) (acc v : Polynomial F), Trimmed acc.coeffs →
      List.foldlM (fun a point => mulPoly g a (Polynomial.monomial (-point))) acc points =
        some v → Trimmed v.coeffs := by
  intro points
  induction points with
  | nil =>
    intro acc v ha h
    rw [foldlM_option_nil] at h
    injection h with h2
    rw [← h2]
    exact ha
  | cons pt rest ih =>
    intro acc v ha h
    rw [foldlM_option_cons] at h
    cases hm : mulPoly g acc (Polynomial.monomial (-pt)) with
    | none =>
      rw [hm] at h
      simp at h
    | some m =>
      rw [hm] at h
      exact ih m v (mulPoly_trimmed g acc _ m hm) h

theorem vanishing_trimmed (g : Nat → F) (points : List F) (v : Polynomial F)
    (h : Polynomial.vanishing_polynomial g points = some v) : Trimmed v.coeffs := by
  apply vanishing_fold_trimmed g points Polynomial.one v ?_ h
  refine Or.inr ?_
  show ([(1 : F)]).getD 0 0 ≠ 0
  exact one_ne_zero


/- ------------------------------------------------------------------ -/
/- Claims.                                                             -/
/- ------------------------------------------------------------------ -/

/-- Claim C1: for every list of point-value pairs with pairwise-distinct
points, given a two-adic generator map good up to the needed domain sizes,
naive_interpolate succeeds and the returned polynomial evaluates (via
evaluate) to exactly the target value at each input point, and its degree is
at most N - 1 where N is the number of pairs. -/
theorem C1_naive_interpolate_correct (g : Nat → F) (K : Nat) (hg : GoodGen g K)
    (ptv : List (F × F)) (hsz : ptv.length + 1 ≤ 2 ^ K)
    (hdist : ∀ i, i < ptv.length → ∀ j, j < ptv.length → i ≠ j →
      (ptv.getD i ((0 : F), (0 : F))).1 ≠ (ptv.getD j ((0 : F), (0 : F))).1) :
    ∃ res, Polynomial.naive_interpolate g ptv = some res ∧
      (∀ j, j < ptv.length → res.evaluate (ptv.getD j ((0 : F), (0 : F))).1 =
        (ptv.getD j ((0 : F), (0 : F))).2) ∧
      res.degree ≤ ptv.length - 1 := by
  obtain ⟨res, h1, h2, h3⟩ := interpolate_main g K hg ptv hsz
    (fun i j hi hj hij => hdist i hi j hj hij)
  refine ⟨res, h1, h2, ?_⟩
  unfold Polynomial.degree
  by_cases hz : res.is_zero
  · rw [if_pos hz]
    omega
  · rw [if_neg hz]
    omega

theorem C1_witness : ∃ res,
    Polynomial.naive_interpolate gen17 [((1 : F17), 5), (2, 7)] = some res ∧
      (∀ j, j < ([((1 : F17), 5), (2, 7)] : List (F17 × F17)).length →
        res.evaluate (([((1 : F17), 5), (2, 7)] : List (F17 × F17)).getD j (0, 0)).1 =
          (([((1 : F17), 5), (2, 7)] : List (F17 × F17)).getD j (0, 0)).2) ∧
      res.degree ≤ ([((1 : F17), 5), (2, 7)] : List (F17 × F17)).length - 1 :=
  C1_naive_interpolate_correct gen17 2 (by decide) [((1 : F17), 5), (2, 7)]
    (by decide) (by decide)

/-- Claim C2: divide_with_q_and_r fails (assert) on a zero divisor; when the
dividend degree is below the divisor degree it returns the zero polynomial
and the dividend unchanged; otherwise, for a canonical nonzero divisor, it
returns a quotient and remainder with the remainder zero or of degree
strictly below the divisor degree. -/
theorem C2_divide_shape (p d : Polynomial F) :
    (d.is_zero = true → p.divide_with_q_and_r d = none) ∧
    (d.is_zero = false → p.degree < d.degree →
      p.divide_with_q_and_r d = some (Polynomial.zero, p)) ∧
    (d.is_zero = false → Trimmed d.coeffs →
      ∃ q r, p.divide_with_q_and_r d = some (q, r) ∧
        (r.is_zero = true ∨ r.degree < d.degree)) := by
  refine ⟨?_, ?_, ?_⟩
  · intro h
    unfold Polynomial.divide_with_q_and_r
    rw [if_pos h]
  · intro hd hdeg
    unfold Polynomial.divide_with_q_and_r
    simp only [hd, Bool.false_eq_true, if_false]
    by_cases hpz : p.is_zero
    · simp only [hpz, if_true]
      have hp0 : p = Polynomial.zero :=
        poly_eq_of_coeffs _ _ (by rw [(is_zero_iff p).mp hpz]; rfl)
      rw [hp0]
    · simp only [hpz, Bool.false_eq_true, if_false]
      rw [if_pos hdeg]
  · intro hd hdt
    obtain ⟨q, r, h1, _, h3, _, _⟩ := divide_some p d hd hdt
    exact ⟨q, r, h1, h3⟩

theorem C2_witness :
    Polynomial.divide_with_q_and_r (⟨[(2 : F17), 3, 1]⟩ : Polynomial F17) ⟨[]⟩ = none ∧
    Polynomial.divide_with_q_and_r (⟨[(2 : F17)]⟩ : Polynomial F17) ⟨[1, 1]⟩ =
      some (Polynomial.zero, ⟨[2]⟩) ∧
    ∃ q r, Polynomial.divide_with_q_and_r (⟨[(2 : F17), 3, 1]⟩ : Polynomial F17) ⟨[1, 1]⟩ =
      some (q, r) ∧
      (r.is_zero = true ∨ r.degree < (⟨[(1 : F17), 1]⟩ : Polynomial F17).degree) :=
  ⟨(C2_divide_shape ⟨[(2 : F17), 3, 1]⟩ ⟨[]⟩).1 (by decide),
    (C2_divide_shape ⟨[(2 : F17)]⟩ ⟨[1, 1]⟩).2.1 (by decide) (by decide),
    (C2_divide_shape ⟨[(2 : F17), 3, 1]⟩ ⟨[1, 1]⟩).2.2 (by decide) (by decide)⟩

/-- Claim C3 as stated is false: naive_interpolate can return a nonempty
all-zero coefficient vector.  Interpolating the single pair (0, 0) over the
concrete field returns the coefficient vector [0], which has a trailing zero
coefficient yet is not the canonical empty zero polynomial. -/
theorem C3_counterexample :
    Polynomial.naive_interpolate gen17 [((0 : F17), 0)] = some ⟨[0]⟩ ∧
      ¬ Trimmed [(0 : F17)] := by
  constructor
  · decide
  · decide

/-- Claim C3 (amended): every polynomial-engine producing operation except
naive_interpolate preserves the canonical-form invariant: zero, one,
monomial, addition, subtraction, negation, multiplication, both components
of division, and vanishing_polynomial return coefficient vectors with no
trailing zero, whenever the inputs are canonical and the operation returns a
result. -/
theorem C3_canonical_amended (g : Nat → F) (p other d : Polynomial F)
    (points : List F) (c : F) :
    Trimmed (Polynomial.zero : Polynomial F).coeffs ∧
    Trimmed (Polynomial.one : Polynomial F).coeffs ∧
    Trimmed (Polynomial.monomial c).coeffs ∧
    (Trimmed p.coeffs → Trimmed other.coeffs → Trimmed (polyAdd p other).coeffs) ∧
    (Trimmed p.coeffs → Trimmed other.coeffs → Trimmed (polySub p other).coeffs) ∧
    (Trimmed p.coeffs → Trimmed (polyNeg p).coeffs) ∧
    (∀ m, mulPoly g p other = some m → Trimmed m.coeffs) ∧
    (∀ q r, Trimmed p.coeffs → Trimmed d.coeffs →
      p.divide_with_q_and_r d = some (q, r) → Trimmed q.coeffs ∧ Trimmed r.coeffs) ∧
    (∀ v, Polynomial.vanishing_polynomial g points = some v → Trimmed v.coeffs) := by
  refine ⟨Or.inl rfl, ?_, monomial_trimmed c, polyAdd_trimmed p other, ?_,
    polyNeg_trimmed p, fun m hm => mulPoly_trimmed g p other m hm, ?_, ?_⟩
  · refine Or.inr ?_
    show ([(1 : F)]).getD 0 0 ≠ 0
    exact one_ne_zero
  · intro hp ho
    exact polyAdd_trimmed p (polyNeg other) hp (polyNeg_trimmed other ho)
  · intro q r hp hd2 h
    by_cases hdz : d.is_zero
    · unfold Polynomial.divide_with_q_and_r at h
      rw [if_pos hdz] at h
      cases h
    · have hdz2 : d.is_zero = false := by
        cases hh : d.is_zero
        · rfl
        · exact absurd hh hdz
      obtain ⟨q0, r0, h1, _, _, htr, _⟩ := divide_some p d hdz2 hd2
      rw [h1] at h
      injection h with h2
      injection h2 with h3 h4
      obtain ⟨htr1, htr2⟩ := htr hp
      exact ⟨h3 ▸ htr2, h4 ▸ htr1⟩
  · intro v hv
    exact vanishing_trimmed g points v hv

theorem C3_witness :
    Trimmed (polyAdd (⟨[(1 : F17), 1]⟩ : Polynomial F17) ⟨[2]⟩).coeffs ∧
    ∀ q r, Polynomial.divide_with_q_and_r (⟨[(2 : F17), 3, 1]⟩ : Polynomial F17)
      ⟨[1, 1]⟩ = some (q, r) → Trimmed q.coeffs ∧ Trimmed r.coeffs :=
  ⟨(C3_canonical_amended gen17 ⟨[(1 : F17), 1]⟩ ⟨[2]⟩ ⟨[1, 1]⟩ [] 0).2.2.2.1
      (by decide) (by decide),
    fun q r h => (C3_canonical_amended gen17 ⟨[(2 : F17), 3, 1]⟩ ⟨[2]⟩ ⟨[1, 1]⟩ [] 0).2.2.2.2.2.2.2.1
      q r (by decide) (by decide) h⟩

/-- Claim C4 as stated is false: multiplying the zero polynomial by the zero
polynomial is a hard failure (the usize length expression len + len - 1
underflows and the matrix construction divides by zero), modelled as none. -/
theorem C4_counterexample :
    mulPoly gen17 (Polynomial.zero : Polynomial F17) Polynomial.zero = none := by
  decide

/-- Claim C4 (amended): addition, subtraction, negation and evaluation are
total functions of the model; multiplication completes except when both
operands are the zero polynomial (usize underflow panic); and for a
canonical divisor, divide_with_q_and_r completes exactly when the divisor is
nonzero. -/
theorem C4_totality_amended (g : Nat → F) (p other d : Polynomial F)
    (hd : Trimmed d.coeffs) :
    ((mulPoly g p other).isSome ↔ ¬ (p.is_zero = true ∧ other.is_zero = true)) ∧
    ((p.divide_with_q_and_r d).isSome ↔ d.is_zero = false) := by
  constructor
  · unfold mulPoly
    by_cases hc : p.coeffs.length + other.coeffs.length = 0
    · rw [if_pos hc]
      simp only [Option.isSome_none, Bool.false_eq_true, false_iff, not_not]
      constructor
      · rw [is_zero_iff]
        exact List.length_eq_zero.mp (by omega)
      · rw [is_zero_iff]
        exact List.length_eq_zero.mp (by omega)
    · rw [if_neg hc]
      simp only [Option.isSome_some, true_iff]
      rintro ⟨h1, h2⟩
      rw [is_zero_iff] at h1 h2
      rw [h1, h2] at hc
      simp at hc
  · constructor
    · intro h
      cases hdz : d.is_zero
      · rfl
      · unfold Polynomial.divide_with_q_and_r at h
        rw [if_pos hdz] at h
        simp at h
    · intro hdz
      obtain ⟨q, r, h1, _⟩ := divide_some p d hdz hd
      rw [h1]
      rfl

theorem C4_witness :
    ((mulPoly gen17 (⟨[(1 : F17)]⟩ : Polynomial F17) ⟨[]⟩).isSome ↔
      ¬ ((⟨[(1 : F17)]⟩ : Polynomial F17).is_zero = true ∧
        (⟨[]⟩ : Polynomial F17).is_zero = true)) ∧
    ((Polynomial.divide_with_q_and_r (⟨[(1 : F17)]⟩ : Polynomial F17)
      ⟨[1, 1]⟩).isSome ↔ (⟨[(1 : F17), 1]⟩ : Polynomial F17).is_zero = false) :=
  C4_totality_amended gen17 ⟨[(1 : F17)]⟩ ⟨[]⟩ ⟨[1, 1]⟩ (by decide)

/-- Claim C5: for every pair of polynomials (with at least one nonempty), the
DFT-based multiplication over the domain of size the next power of two at or
above len + len - 1, with a primitive root of that order, returns exactly
the trailing-zero-truncated brute-force schoolbook convolution of the two
coefficient vectors. -/
theorem C5_mul_matches_naive_convolution (g : Nat → F) (p other : Polynomial F)
    (hne : p.coeffs.length + other.coeffs.length ≠ 0)
    (hroot : primRoot (g (ceilLog2 (p.coeffs.length + other.coeffs.length - 1)))
      (2 ^ ceilLog2 (p.coeffs.length + other.coeffs.length - 1)))
    (hnF : ((2 ^ ceilLog2 (p.coeffs.length + other.coeffs.length - 1) : ℕ) : F) ≠ 0) :
    mulPoly g p other =
      some (Polynomial.truncate_leading_zeros ⟨naiveConv p.coeffs other.coeffs⟩) :=
  mulPoly_eq_conv g p other hne hroot hnF

theorem C5_witness :
    mulPoly gen17 (⟨[(1 : F17), 2]⟩ : Polynomial F17) ⟨[3]⟩ =
      some (Polynomial.truncate_leading_zeros
        ⟨naiveConv [(1 : F17), 2] [(3 : F17)]⟩) :=
  C5_mul_matches_naive_convolution gen17 ⟨[(1 : F17), 2]⟩ ⟨[3]⟩
    (by decide) (by decide) (by decide)

/-- Claim C6: the exact-division operator returns the quotient of
divide_with_q_and_r when the remainder is zero, fails (assert) when the
remainder is nonzero, and propagates the failure of divide_with_q_and_r; for
a canonical nonzero divisor the underlying division always yields a pair. -/
theorem C6_div_asserts_zero_remainder (p d : Polynomial F) :
    (∀ q r, p.divide_with_q_and_r d = some (q, r) →
      polyDiv p d = (if r.is_zero then some q else none)) ∧
    (p.divide_with_q_and_r d = none → polyDiv p d = none) ∧
    (d.is_zero = false → Trimmed d.coeffs →
      ∃ q r, p.divide_with_q_and_r d = some (q, r)) := by
  refine ⟨?_, ?_, ?_⟩
  · intro q r h
    unfold polyDiv
    rw [h]
  · intro h
    unfold polyDiv
    rw [h]
  · intro hd hdt
    obtain ⟨q, r, h1, _⟩ := divide_some p d hd hdt
    exact ⟨q, r, h1⟩

theorem C6_witness :
    polyDiv (⟨[(2 : F17), 3, 1]⟩ : Polynomial F17) ⟨[1, 1]⟩ =
      (if (⟨[]⟩ : Polynomial F17).is_zero then some (⟨[2, 1]⟩ : Polynomial F17)
        else none) ∧
    polyDiv (⟨[(1 : F17), 1, 1]⟩ : Polynomial F17) ⟨[1, 1]⟩ =
      (if (⟨[(1 : F17)]⟩ : Polynomial F17).is_zero then
        some (⟨[(0 : F17), 1]⟩ : Polynomial F17) else none) :=
  ⟨(C6_div_asserts_zero_remainder ⟨[(2 : F17), 3, 1]⟩ ⟨[1, 1]⟩).1 ⟨[2, 1]⟩ ⟨[]⟩
      (by decide),
    (C6_div_asserts_zero_remainder ⟨[(1 : F17), 1, 1]⟩ ⟨[1, 1]⟩).1 ⟨[0, 1]⟩ ⟨[1]⟩
      (by decide)⟩

/-- Claim C7: for canonical A and canonical nonzero B, with a primitive root
for the multiplication domain, (A * B) / B recovers A: the product succeeds
and the asserting exact division of it by B returns A. -/
theorem C7_mul_div_recovers_factor (g : Nat → F) (A B : Polynomial F)
    (hAt : Trimmed A.coeffs) (hBt : Trimmed B.coeffs) (hB : B.is_zero = false)
    (hroot : primRoot (g (ceilLog2 (A.coeffs.length + B.coeffs.length - 1)))
      (2 ^ ceilLog2 (A.coeffs.length + B.coeffs.length - 1)))
    (hnF : ((2 ^ ceilLog2 (A.coeffs.length + B.coeffs.length - 1) : ℕ) : F) ≠ 0) :
    ∃ m, mulPoly g A B = some m ∧ polyDiv m B = some A :=
  mul_div_cancel_poly g A B hAt hBt hB hroot hnF

theorem C7_witness :
    ∃ m, mulPoly gen17 (⟨[(1 : F17), 1]⟩ : Polynomial F17) ⟨[2, 1]⟩ = some m ∧
      polyDiv m ⟨[2, 1]⟩ = some ⟨[(1 : F17), 1]⟩ :=
  C7_mul_div_recovers_factor gen17 ⟨[(1 : F17), 1]⟩ ⟨[2, 1]⟩
    (by decide) (by decide) (by decide) (by decide) (by decide)

/-- Claim C8: degree returns len - 1 for every polynomial with a nonempty
coefficient vector, and the special-cased value 0 for the zero polynomial. -/
theorem C8_degree_definition (p : Polynomial F) :
    (p.is_zero = true → p.degree = 0) ∧
    (p.is_zero = false → p.degree = p.coeffs.length - 1) := by
  constructor
  · intro h
    unfold Polynomial.degree
    rw [if_pos h]
  · intro h
    exact degree_of_ne_nil p ((is_zero_false_iff p).mp h)

theorem C8_witness :
    (⟨[]⟩ : Polynomial F17).degree = 0 ∧
      (⟨[(3 : F17), 5]⟩ : Polynomial F17).degree =
        ([(3 : F17), 5] : List F17).length - 1 :=
  ⟨(C8_degree_definition (⟨[]⟩ : Polynomial F17)).1 (by decide),
    (C8_degree_definition (⟨[(3 : F17), 5]⟩ : Polynomial F17)).2 (by decide)⟩

/-- Claim C9: for every polynomial p and canonical nonzero divisor d,
divide_with_q_and_r returns a pair (q, r) satisfying the Euclidean division
identity p = q * d + r as polynomials over the field. -/
theorem C9_euclidean_identity (p d : Polynomial F) (hd : d.is_zero = false)
    (hdt : Trimmed d.coeffs) :
    ∃ q r, p.divide_with_q_and_r d = some (q, r) ∧
      sem p.coeffs = sem q.coeffs * sem d.coeffs + sem r.coeffs := by
  obtain ⟨q, r, h1, h2, _⟩ := divide_some p d hd hdt
  exact ⟨q, r, h1, h2⟩

theorem C9_witness :
    ∃ q r, Polynomial.divide_with_q_and_r (⟨[(1 : F17), 1, 1]⟩ : Polynomial F17)
      ⟨[1, 1]⟩ = some (q, r) ∧
      sem ([(1 : F17), 1, 1]) = sem q.coeffs * sem ([(1 : F17), 1]) + sem r.coeffs :=
  C9_euclidean_identity ⟨[(1 : F17), 1, 1]⟩ ⟨[1, 1]⟩ (by decide) (by decide)

/-- Claim C10: is_zero holds exactly on the empty coefficient vector, so a
polynomial built by from_coeffs from a nonempty all-zero vector is reported
nonzero, has degree len - 1, yet evaluates to zero at every point. -/
theorem C10_fake_zero (p : Polynomial F) (k : Nat) (hk : 0 < k) :
    (p.is_zero = true ↔ p.coeffs = []) ∧
    (Polynomial.from_coeffs (List.replicate k (0 : F))).is_zero = false ∧
    (Polynomial.from_coeffs (List.replicate k (0 : F))).degree = k - 1 ∧
    ∀ x : F, (Polynomial.from_coeffs (List.replicate k (0 : F))).evaluate x = 0 := by
  have hne : List.replicate k (0 : F) ≠ [] := by
    intro hc
    have hlen := congrArg List.length hc
    rw [List.length_replicate] at hlen
    simp at hlen
    omega
  refine ⟨is_zero_iff p, ?_, ?_, ?_⟩
  · rw [is_zero_false_iff]
    exact hne
  · show (⟨List.replicate k (0 : F)⟩ : Polynomial F).degree = k - 1
    rw [degree_of_ne_nil _ hne]
    show (List.replicate k (0 : F)).length - 1 = k - 1
    rw [List.length_replicate]
  · intro x
    rw [evaluate_eq_sem_eval]
    show (sem (List.replicate k (0 : F))).eval x = 0
    rw [sem_replicate_zero]
    simp

theorem C10_witness :
    ((⟨[(4 : F17)]⟩ : Polynomial F17).is_zero = true ↔ ([(4 : F17)]) = []) ∧
    (Polynomial.from_coeffs (List.replicate 1 (0 : F17))).is_zero = false ∧
    (Polynomial.from_coeffs (List.replicate 1 (0 : F17))).degree = 1 - 1 ∧
    ∀ x : F17, (Polynomial.from_coeffs (List.replicate 1 (0 : F17))).evaluate x = 0 :=
  C10_fake_zero (⟨[(4 : F17)]⟩ : Polynomial F17) 1 (by decide)

end Stir
